import Mathlib

/-!
Verification of a disjunctive (OR-semantics) frequent-itemset miner built on an
FP-tree.  The definitions below are a shallow embedding of the program's data
model and operations: the linked node structure of the source (parent, children
and same-item neighbour references) is represented as an arena of nodes
addressed by the node identifiers the source itself assigns (the root has
identifier 0, every newly created node receives the next identifier), so each
Python object reference becomes a `Nat` index into `FPTree.nodes`.  Items are
the `Nat` items of the program's numeric mode.  Pointer-chasing loops of the
source become fuel-based structural recursions; the fuel (the number of nodes)
is sufficient on every tree the program builds because parent identifiers
decrease and neighbour identifiers increase strictly.  Fallible operations
(Python `dict` lookups that may raise `KeyError`, list indexing that may raise
`IndexError`) return `Option`, with `none` standing for the raised exception.
-/

namespace DisjMining

/-- A node of the FP-tree: the fields of the source's `FPNode` class.  `item`
and `count` are `none` exactly on the sentinel root node.  `parent` and
`neighbour` hold node identifiers; `children` is the insertion-ordered mapping
from an item to the identifier of the owned child node. -/
structure FPNode where
  item : Option Nat
  count : Option Nat
  parent : Option Nat
  children : List (Nat × Nat)
  neighbour : Option Nat
deriving DecidableEq, Repr

/-- The sentinel root node created by `FPTree.__init__`: no item, no count, no
parent, identifier 0. -/
def rootFPNode : FPNode :=
  { item := none, count := none, parent := none, children := [], neighbour := none }

/-- The FP-tree: the arena of nodes (index = the source's `nodeID`; the root is
at index 0) and the header table mapping an item to the (head, tail) pair of
its occurrence chain.  The source's `_nodesCount` is `nodes.length - 1`. -/
structure FPTree where
  nodes : List FPNode
  header : List (Nat × Nat × Nat)
deriving DecidableEq, Repr

/-- A freshly initialised tree: just the root, empty header table. -/
def emptyFPTree : FPTree := { nodes := [rootFPNode], header := [] }

/-- Replace the element at an index by applying a function (in-place node
mutation of the source becomes a functional update of the arena). -/
def modifyAt {α : Type} : List α → Nat → (α → α) → List α
  | [], _, _ => []
  | a :: l, 0, f => f a :: l
  | a :: l, n + 1, f => a :: modifyAt l n f

/-- Python `dict` assignment `d[k] = v` on an association list: replace the
entry of an existing key in place, otherwise append a new entry. -/
def assocUpdate {β : Type} : List (Nat × β) → Nat → β → List (Nat × β)
  | [], k, v => [(k, v)]
  | (k', v') :: l, k, v =>
      if k' = k then (k, v) :: l else (k', v') :: assocUpdate l k v

/-- `FPNode.searchChildren`: the child node representing `item`, if any. -/
def FPNode.searchChildren (n : FPNode) (item : Nat) : Option Nat :=
  n.children.lookup item

/-- `FPNode.incrementCount`.  In the source this raises when the node carries
no count (only the root does); `addTransaction` never increments the root, so
the `none` case is unreachable there and is mapped through unchanged. -/
def FPNode.incrementCount (n : FPNode) : FPNode :=
  { n with count := n.count.map (· + 1) }

/-- `FPTree.updateHeader`: append the freshly created node `newId` to the
occurrence chain of `item` — link it as neighbour of the current tail and make
it the new tail, or create the chain when the item is new. -/
def FPTree.updateHeader (t : FPTree) (item newId : Nat) : FPTree :=
  match t.header.lookup item with
  | some ht =>
      { t with
        nodes := modifyAt t.nodes ht.2 (fun nd => { nd with neighbour := some newId }),
        header := assocUpdate t.header item (ht.1, newId) }
  | none =>
      { t with header := assocUpdate t.header item (newId, newId) }

/-- `FPNode.addChild`: attach `childId` as the child of `parentId` for `item`
unless a child for that item already exists (the parent field of the child is
set at creation in this embedding, which onlyever runs when the guard holds). -/
def FPTree.addChild (t : FPTree) (parentId item childId : Nat) : FPTree :=
  { t with
    nodes := modifyAt t.nodes parentId (fun nd =>
      if (nd.children.lookup item).isSome then nd
      else { nd with children := nd.children ++ [(item, childId)] }) }

/-- The walk of `FPTree.addTransaction` from the current node over the
remaining items of the transaction: follow an existing child and increment its
count, or create a new node (count 1, next identifier), attach it and register
it in the header table. -/
def addTransactionGo (t : FPTree) (curr : Nat) : List Nat → FPTree
  | [] => t
  | item :: rest =>
    match (t.nodes[curr]?).bind (fun nd => nd.searchChildren item) with
    | some childId =>
        addTransactionGo
          { t with nodes := modifyAt t.nodes childId FPNode.incrementCount }
          childId rest
    | none =>
        let newId := t.nodes.length
        let t1 : FPTree :=
          { t with
            nodes := t.nodes ++
              [{ item := some item, count := some 1, parent := some curr,
                 children := [], neighbour := none }] }
        let t2 := t1.addChild curr item newId
        let t3 := t2.updateHeader item newId
        addTransactionGo t3 newId rest

/-- `FPTree.addTransaction`: insert one transaction starting at the root. -/
def FPTree.addTransaction (t : FPTree) (transaction : List Nat) : FPTree :=
  addTransactionGo t 0 transaction

/-- `buildFPTree`: fold all transactions into a fresh tree. -/
def buildFPTree (transactions : List (List Nat)) : FPTree :=
  transactions.foldl FPTree.addTransaction emptyFPTree

/-! Field accessors on the arena, used both by the embedded algorithms and by
the verification layer. -/

/-- The item of the node with the given identifier. -/
def itemOf (t : FPTree) (id : Nat) : Option Nat :=
  (t.nodes[id]?).bind FPNode.item

/-- The parent identifier of the node with the given identifier. -/
def parentOf (t : FPTree) (id : Nat) : Option Nat :=
  (t.nodes[id]?).bind FPNode.parent

/-- The neighbour (next same-item node) identifier of the given node. -/
def neighbourOf (t : FPTree) (id : Nat) : Option Nat :=
  (t.nodes[id]?).bind FPNode.neighbour

/-- The count of the given node, 0 for the root and for invalid identifiers. -/
def countOf (t : FPTree) (id : Nat) : Nat :=
  ((t.nodes[id]?).bind FPNode.count).getD 0

/-- The children association list of the given node. -/
def childrenOf (t : FPTree) (id : Nat) : List (Nat × Nat) :=
  ((t.nodes[id]?).map FPNode.children).getD []

/-- The sum of the counts of the root's children (the quantity of the spec's
root-level count property). -/
def rootChildrenCountSum (t : FPTree) : Nat :=
  ((childrenOf t 0).map (fun pr => countOf t pr.2)).sum

/-! The disjunctive support calculator (`checkPath` / `findSupportByPrefixPath`). -/

/-- The inner `while` loop of `checkPath`: walk ancestors of a node upward
(`y` is the current ancestor identifier) while the root (identifier 0) is not
reached; report `true` when an ancestor carries `target`, and stop early when
an ancestor's canonical rank falls below the rank of `target`.  The fuel is
the node count; ancestor identifiers strictly decrease on every tree the
program builds, so the fuel is never exhausted there. -/
def ancestorSearch (t : FPTree) (itemsOrder : List Nat) (target : Nat) :
    Nat → Nat → Bool
  | 0, _ => false
  | fuel + 1, y =>
    if y = 0 then false
    else
      match t.nodes[y]? with
      | none => false
      | some nd =>
        if nd.item = some target then true
        else if itemsOrder.indexOf (nd.item.getD 0) < itemsOrder.indexOf target then false
        else ancestorSearch t itemsOrder target fuel (nd.parent.getD 0)

/-- `checkPath(itemList, i, X_node, tree, itemsOrder)` with the source's index
`i` represented as `j = i + 1` (so `j = 0` is the source's `i < 0` base case):
does the prefix path of node `xId` contain one of the items at itemset indices
`0 .. j-1`?  Each index is checked by an ancestor walk starting at the parent
of `xId`; on failure the search recurses with the next smaller index. -/
def checkPath (itemList : List Nat) : Nat → Nat → FPTree → List Nat → Bool
  | 0, _, _, _ => false
  | j + 1, xId, t, itemsOrder =>
    let target := (itemList[j]?).getD 0
    let y0 := ((t.nodes[xId]?).bind FPNode.parent).getD 0
    if ancestorSearch t itemsOrder target t.nodes.length y0 then true
    else checkPath itemList j xId t itemsOrder

/-- The inner `while X_node != None` loop of `findSupportByPrefixPath`: walk
the occurrence chain of the itemset's `k`-th item, adding the count of every
occurrence node whose prefix path contains no earlier itemset item. -/
def chainSupportGo (t : FPTree) (itemsOrder itemList : List Nat) (k : Nat) :
    Nat → Option Nat → Nat
  | _, none => 0
  | 0, some _ => 0
  | fuel + 1, some x =>
    (if checkPath itemList k x t itemsOrder then 0 else countOf t x)
      + chainSupportGo t itemsOrder itemList k fuel (neighbourOf t x)

/-- The outer `for k in range(len(newList))` loop of `findSupportByPrefixPath`
as a recursion on the number of processed itemset indices.  The head of the
occurrence chain is read from the header table with an unguarded subscript,
so a missing entry is the source's `KeyError`: the result is `none`. -/
def suppLoop (t : FPTree) (itemsOrder itemList : List Nat) : Nat → Option Nat
  | 0 => some 0
  | k + 1 =>
    match suppLoop t itemsOrder itemList k, itemList[k]? with
    | none, _ => none
    | _, none => none
    | some s, some it =>
      match t.header.lookup it with
      | none => none
      | some ht =>
          some (s + chainSupportGo t itemsOrder itemList k t.nodes.length (some ht.1))

/-- `findSupportByPrefixPath(newList, tree, itemsOrder)`: the disjunctive
support of the itemset, or `none` for the source's uncaught `KeyError` when
an itemset item has no header-table entry. -/
def findSupportByPrefixPath (newList : List Nat) (t : FPTree) (itemsOrder : List Nat) :
    Option Nat :=
  suppLoop t itemsOrder newList newList.length

/-! The alternative breadth-first calculator (`findSupportByBFS`).  The two
`sorted(...)` calls of the source discard their results, so children are
processed in insertion order; the order does not affect the returned sum. -/

/-- The `for node in childrenNodes` body of `findSupportByBFS`: skip visited
children; a child whose item matches some itemset item adds its count (and is
neither marked visited nor enqueued); other children are marked and enqueued. -/
def bfsChildren (t : FPTree) (newList : List Nat) :
    List (Nat × Nat) → List Nat → List Bool → Nat → List Nat × List Bool × Nat
  | [], q, visited, s => (q, visited, s)
  | (it, c) :: rest, q, visited, s =>
    if visited.getD c false then bfsChildren t newList rest q visited s
    else if newList.contains it then
      bfsChildren t newList rest q visited (s + countOf t c)
    else bfsChildren t newList rest (q ++ [c]) (visited.set c true) s

/-- The `while not q.empty()` loop of `findSupportByBFS`.  The fuel bounds the
number of dequeues; on the program's trees at most one enqueue happens per
node, so the node count suffices. -/
def bfsLoop (t : FPTree) (newList : List Nat) :
    Nat → List Nat → List Bool → Nat → Nat
  | 0, _, _, s => s
  | _ + 1, [], _, s => s
  | fuel + 1, src :: q, visited, s =>
    let cs := ((t.nodes[src]?).map FPNode.children).getD []
    let r := bfsChildren t newList cs q visited s
    bfsLoop t newList fuel r.1 r.2.1 r.2.2

/-- `findSupportByBFS(newList, tree)`: breadth-first walk from the root with a
visited array of `nodesCount + 1` entries, the root pre-marked. -/
def findSupportByBFS (newList : List Nat) (t : FPTree) : Nat :=
  bfsLoop t newList t.nodes.length [0] ((List.replicate t.nodes.length false).set 0 true) 0

/-! Preprocessing (`filterTransactions`). -/

/-- The frequency of an item over the whole transaction list (every appearance
counts, as in the source's `itemsDict`). -/
def itemCount (transactions : List (List Nat)) (x : Nat) : Nat :=
  (transactions.map fun T => T.count x).sum

/-- The distinct items in first-appearance order — the key order of the
source's `defaultdict`. -/
def collectItems (transactions : List (List Nat)) : List Nat :=
  transactions.foldl
    (fun acc T => T.foldl (fun acc2 x => if x ∈ acc2 then acc2 else acc2 ++ [x]) acc) []

/-- The comparison realised by `sorted(..., key=itemgetter(1, 0), reverse=True)`:
`a` precedes `b` when the pair (count, item) of `a` is at least that of `b`
lexicographically — descending count, ties broken by descending item value. -/
def keyGE (cnt : Nat → Nat) (a b : Nat) : Bool :=
  decide (cnt b < cnt a) || (decide (cnt a = cnt b) && decide (b ≤ a))

/-- Insertion step of the descending sort of the item dictionary. -/
def insertByKey (cnt : Nat → Nat) (a : Nat) : List Nat → List Nat
  | [] => [a]
  | b :: l => if keyGE cnt a b then a :: b :: l else b :: insertByKey cnt a l

/-- Sort items descending by (count, item); the sort key is injective on
distinct items, so this reproduces the source's ordering exactly. -/
def sortByKeyDesc (cnt : Nat → Nat) : List Nat → List Nat
  | [] => []
  | a :: l => insertByKey cnt a (sortByKeyDesc cnt l)

/-- The canonical item order (`itemsOrder`) produced by `filterTransactions`. -/
def itemsOrderOf (transactions : List (List Nat)) : List Nat :=
  sortByKeyDesc (itemCount transactions) (collectItems transactions)

/-- Stable insertion for the per-transaction sort by canonical rank. -/
def insertByRank (ord : List Nat) (a : Nat) : List Nat → List Nat
  | [] => [a]
  | b :: l => if ord.indexOf a ≤ ord.indexOf b then a :: b :: l else b :: insertByRank ord a l

/-- Stable sort of a transaction by canonical rank (`transaction.sort(key=...)`). -/
def sortByRank (ord : List Nat) : List Nat → List Nat
  | [] => []
  | a :: l => insertByRank ord a (sortByRank ord l)

/-- `cleanTransactions`: keep the items present in the frequency dictionary
(every item is, since the minimum-support filter of the source is commented
out) and sort by canonical rank. -/
def cleanTransaction (itemsOrder : List Nat) (transaction : List Nat) : List Nat :=
  sortByRank itemsOrder (transaction.filter (fun v => itemsOrder.contains v))

/-- `filterTransactions(transactions, minSupp)`: the reordered transactions
and the canonical item order.  `minSupp` is accepted but unused because the
filtering step of the source is commented out. -/
def filterTransactions (transactions : List (List Nat)) (minSupp : Nat) :
    List (List Nat) × List Nat :=
  let _ := minSupp
  let itemsOrder := itemsOrderOf transactions
  (transactions.map (cleanTransaction itemsOrder), itemsOrder)

/-! The lattice enumerator (`generateItemsets` / `findFrequentItemsets`). -/

/-- The loop of `generateItemsets` with the running index `i` represented by
the remaining iteration count `cnt` (the current index is `end_ + cnt`, and
`cnt = (start - end_ + 1).toNat` at entry, so `cnt = 0` is the source's
`i < end` exit).  Each iteration checks the depth guard, removes the item at
the current index from the candidate, computes its support, and on success
records the candidate and recurses into it with depth one less; `none`
propagates the source's uncaught exceptions (`IndexError` on a bad index,
`KeyError` from the support call). -/
def genLoop (end_ : Int) (minSupp : Nat) (fpt : FPTree) (itemsOrder : List Nat) :
    Nat → Int → List Nat → Option (List (List Nat × Nat))
  | 0, _, _ => some []
  | cnt + 1, depth, itemsList =>
    if depth = end_ + 1 then some []
    else
      match itemsList[(end_ + cnt).toNat]? with
      | none => none
      | some x =>
        let newList := itemsList.erase x
        match findSupportByPrefixPath newList fpt itemsOrder with
        | none => none
        | some val =>
          if minSupp ≤ val then
            match genLoop end_ minSupp fpt itemsOrder cnt (depth - 1) newList with
            | none => none
            | some rec1 =>
              match genLoop end_ minSupp fpt itemsOrder cnt depth itemsList with
              | none => none
              | some rest => some ((newList, val) :: (rec1 ++ rest))
          else genLoop end_ minSupp fpt itemsOrder cnt depth itemsList

/-- `generateItemsets(itemsList, start, end, depth, minSupp, fpt, itemsOrder)`,
returning the list of recorded (itemset, support) pairs in recording order. -/
def generateItemsets (itemsList : List Nat) (start end_ depth : Int) (minSupp : Nat)
    (fpt : FPTree) (itemsOrder : List Nat) : Option (List (List Nat × Nat)) :=
  genLoop end_ minSupp fpt itemsOrder (start - end_ + 1).toNat depth itemsList

/-- `findFrequentItemsets(fpt, itemsOrder, minSupp)`: run the enumerator from
the full canonical item list with start `|items| - 1`, end 0, depth `|items|`. -/
def findFrequentItemsets (fpt : FPTree) (itemsOrder : List Nat) (minSupp : Nat) :
    Option (List (List Nat × Nat)) :=
  generateItemsets itemsOrder ((itemsOrder.length : Int) - 1) 0 (itemsOrder.length : Int)
    minSupp fpt itemsOrder

/-! Verification layer: path semantics of the arena, occurrence lists, the
canonical-order predicate, and the structural invariants of trees the program
builds.  These definitions are the vocabulary of the theorems below; the
algorithms above never use them. -/

/-- The item sequence along the path from the root down to the node with the
given identifier (excluding the root, including the node itself); `[]` for the
root.  On the program's trees parent identifiers strictly decrease, so the
recursion follows the actual parent chain. -/
def pathOf (t : FPTree) (id : Nat) : List Nat :=
  if _h : id = 0 then []
  else
    match t.nodes[id]? with
    | none => []
    | some nd =>
      match nd.parent with
      | none => [nd.item.getD 0]
      | some p =>
        if _hlt : p < id then pathOf t p ++ [nd.item.getD 0]
        else [nd.item.getD 0]
termination_by id

/-- Follow neighbour links starting from an optional node identifier,
collecting the visited identifiers (fuel-bounded). -/
def chainWalk (t : FPTree) : Nat → Option Nat → List Nat
  | _, none => []
  | 0, some _ => []
  | fuel + 1, some y => y :: chainWalk t fuel (neighbourOf t y)

/-- All node identifiers carrying the given item, in increasing identifier
(i.e. creation) order. -/
def occList (t : FPTree) (x : Nat) : List Nat :=
  (List.range t.nodes.length).filter (fun id => decide (itemOf t id = some x))

/-- The occurrence chain of an item as the program reads it: from the header
table's head pointer via neighbour links (the source's `FPTree.nodes`
generator). -/
def nodesOf (t : FPTree) (x : Nat) : List Nat :=
  match t.header.lookup x with
  | none => []
  | some ht => chainWalk t t.nodes.length (some ht.1)

/-- The contribution of inserting the item sequence `rest` below a node with
path `P` to the count of the node with path `q`: one exactly when `q` strictly
extends `P` and stays within `P ++ rest`. -/
def extPrefixCount (P rest q : List Nat) : Nat :=
  if P <+: q ∧ q ≠ P ∧ q <+: P ++ rest then 1 else 0

/-- A list is in canonical order w.r.t. `ord`: its items appear in `ord` and
their ranks (positions in `ord`) are strictly increasing.  For distinct items
this is exactly "sorted in the canonical order". -/
def Canonical (ord l : List Nat) : Prop :=
  l.Pairwise (fun a b => ord.indexOf a < ord.indexOf b) ∧ ∀ x ∈ l, x ∈ ord

instance (ord l : List Nat) : Decidable (Canonical ord l) := by
  unfold Canonical
  infer_instance

/-- The header-table invariant for one item: the entry (if any) designates the
first and last identifier carrying the item, consecutive occurrences are
linked by neighbour pointers, and the chain terminates at the tail. -/
def HeaderProp (t : FPTree) (x : Nat) : Prop :=
  match t.header.lookup x with
  | none => occList t x = []
  | some ht =>
      occList t x ≠ [] ∧ (occList t x).head? = some ht.1 ∧
      (occList t x).getLast? = some ht.2 ∧
      (occList t x).Chain' (fun a b => neighbourOf t a = some b) ∧
      neighbourOf t ht.2 = none

/-- Structural well-formedness of a tree, as established by construction:
the sentinel root at identifier 0; every other node has an item, a positive
count and a parent with a smaller identifier; the children map and the parent
references are mutually inverse; neighbour links increase and preserve the
item; the header table satisfies `HeaderProp`. -/
structure WF (t : FPTree) : Prop where
  nodesNe : t.nodes ≠ []
  rootItem : itemOf t 0 = none
  rootParent : parentOf t 0 = none
  itemSome : ∀ id, 1 ≤ id → id < t.nodes.length → ∃ x, itemOf t id = some x
  countPos : ∀ id, 1 ≤ id → id < t.nodes.length → 1 ≤ countOf t id
  parentLt : ∀ id, 1 ≤ id → id < t.nodes.length → ∃ p, parentOf t id = some p ∧ p < id
  childMem : ∀ id, id < t.nodes.length → ∀ pr ∈ childrenOf t id,
      1 ≤ pr.2 ∧ pr.2 < t.nodes.length ∧ itemOf t pr.2 = some pr.1 ∧ parentOf t pr.2 = some id
  childLookup : ∀ c, 1 ≤ c → c < t.nodes.length → ∀ p x,
      parentOf t c = some p → itemOf t c = some x → (childrenOf t p).lookup x = some c
  nbGt : ∀ id nb, neighbourOf t id = some nb → id < nb ∧ nb < t.nodes.length ∧ itemOf t nb = itemOf t id
  headerOcc : ∀ x, HeaderProp t x

/-- The full construction invariant of `buildFPTree ts`: well-formedness,
count semantics (a node's count is the number of transactions having its path
as a prefix) and path completeness (the nodes' paths are exactly the nonempty
prefixes of the transactions). -/
structure BuildInv (t : FPTree) (ts : List (List Nat)) : Prop where
  wf : WF t
  counts : ∀ id, 1 ≤ id → id < t.nodes.length →
      countOf t id = ts.countP (fun T => decide (pathOf t id <+: T))
  paths : ∀ q, (∃ id, 1 ≤ id ∧ id < t.nodes.length ∧ pathOf t id = q) ↔
      (q ≠ [] ∧ ∃ T ∈ ts, q <+: T)
  items : ∀ y, (∃ id, 1 ≤ id ∧ id < t.nodes.length ∧ itemOf t id = some y) ↔
      ∃ T ∈ ts, y ∈ T

/-!  ## Theorems

First, general-purpose helper lemmas about the list operations used by the
embedding, then the invariant development, then one theorem per claim. -/

/-! Helper lemmas on the preprocessing sort. -/

theorem keyGE_total (cnt : Nat → Nat) (a b : Nat) :
    keyGE cnt a b = true ∨ keyGE cnt b a = true := by
  unfold keyGE
  simp only [Bool.or_eq_true, Bool.and_eq_true, decide_eq_true_eq]
  omega

theorem keyGE_trans (cnt : Nat → Nat) (a b c : Nat) :
    keyGE cnt a b = true → keyGE cnt b c = true → keyGE cnt a c = true := by
  unfold keyGE
  simp only [Bool.or_eq_true, Bool.and_eq_true, decide_eq_true_eq]
  omega

theorem insertByKey_perm (cnt : Nat → Nat) (a : Nat) :
    ∀ l, (insertByKey cnt a l).Perm (a :: l) := by
  intro l
  induction l with
  | nil => exact List.Perm.refl _
  | cons b l ih =>
    unfold insertByKey
    by_cases h : keyGE cnt a b = true
    · rw [if_pos h]
    · rw [if_neg h]
      exact (ih.cons b).trans (List.Perm.swap a b l)

theorem insertByKey_pairwise (cnt : Nat → Nat) (a : Nat) :
    ∀ l, l.Pairwise (fun x y => keyGE cnt x y = true) →
      (insertByKey cnt a l).Pairwise (fun x y => keyGE cnt x y = true) := by
  intro l
  induction l with
  | nil => intro _; simp [insertByKey]
  | cons b l ih =>
    intro hp
    rcases List.pairwise_cons.mp hp with ⟨hb, hl⟩
    unfold insertByKey
    by_cases h : keyGE cnt a b = true
    · rw [if_pos h]
      refine List.pairwise_cons.mpr ⟨?_, hp⟩
      intro y hy
      rcases List.mem_cons.mp hy with rfl | hy
      · exact h
      · exact keyGE_trans cnt a b y h (hb y hy)
    · rw [if_neg h]
      have hba : keyGE cnt b a = true := (keyGE_total cnt a b).resolve_left h
      refine List.pairwise_cons.mpr ⟨?_, ih hl⟩
      intro y hy
      have hy2 : y ∈ a :: l := (insertByKey_perm cnt a l).mem_iff.mp hy
      rcases List.mem_cons.mp hy2 with rfl | hy3
      · exact hba
      · exact hb y hy3

theorem sortByKeyDesc_perm (cnt : Nat → Nat) :
    ∀ l, (sortByKeyDesc cnt l).Perm l := by
  intro l
  induction l with
  | nil => exact List.Perm.refl _
  | cons a l ih =>
    exact (insertByKey_perm cnt a (sortByKeyDesc cnt l)).trans (ih.cons a)

theorem sortByKeyDesc_pairwise (cnt : Nat → Nat) :
    ∀ l, (sortByKeyDesc cnt l).Pairwise (fun x y => keyGE cnt x y = true) := by
  intro l
  induction l with
  | nil => simp [sortByKeyDesc]
  | cons a l ih => exact insertByKey_pairwise cnt a _ ih

theorem foldlIns_mem (T : List Nat) :
    ∀ (acc : List Nat) (x : Nat),
      x ∈ T.foldl (fun acc2 y => if y ∈ acc2 then acc2 else acc2 ++ [y]) acc ↔
        x ∈ acc ∨ x ∈ T := by
  induction T with
  | nil => simp
  | cons a T ih =>
    intro acc x
    simp only [List.foldl_cons]
    rw [ih]
    by_cases h : a ∈ acc
    · rw [if_pos h]
      constructor
      · rintro (hx | hx)
        · exact Or.inl hx
        · exact Or.inr (List.mem_cons_of_mem a hx)
      · rintro (hx | hx)
        · exact Or.inl hx
        · rcases List.mem_cons.mp hx with rfl | hx
          · exact Or.inl h
          · exact Or.inr hx
    · rw [if_neg h]
      simp only [List.mem_append, List.mem_singleton, List.mem_cons]
      tauto

theorem foldlIns_nodup (T : List Nat) :
    ∀ acc : List Nat, acc.Nodup →
      (T.foldl (fun acc2 y => if y ∈ acc2 then acc2 else acc2 ++ [y]) acc).Nodup := by
  induction T with
  | nil => intro acc h; exact h
  | cons a T ih =>
    intro acc hacc
    simp only [List.foldl_cons]
    by_cases h : a ∈ acc
    · rw [if_pos h]; exact ih acc hacc
    · rw [if_neg h]
      refine ih _ ?_
      simp [List.nodup_append, hacc, h]

theorem collectItems_mem (ts : List (List Nat)) (x : Nat) :
    x ∈ collectItems ts ↔ ∃ T ∈ ts, x ∈ T := by
  have main : ∀ (l : List (List Nat)) (acc : List Nat),
      x ∈ l.foldl (fun acc T =>
        T.foldl (fun acc2 y => if y ∈ acc2 then acc2 else acc2 ++ [y]) acc) acc ↔
      x ∈ acc ∨ ∃ T ∈ l, x ∈ T := by
    intro l
    induction l with
    | nil => simp
    | cons T l ih =>
      intro acc
      simp only [List.foldl_cons]
      rw [ih, foldlIns_mem]
      simp only [List.mem_cons]
      constructor
      · rintro ((hx | hx) | ⟨S, hS, hxS⟩)
        · exact Or.inl hx
        · exact Or.inr ⟨T, Or.inl rfl, hx⟩
        · exact Or.inr ⟨S, Or.inr hS, hxS⟩
      · rintro (hx | ⟨S, (rfl | hS), hxS⟩)
        · exact Or.inl (Or.inl hx)
        · exact Or.inl (Or.inr hxS)
        · exact Or.inr ⟨S, hS, hxS⟩
  rw [collectItems, main]
  simp

theorem collectItems_nodup (ts : List (List Nat)) : (collectItems ts).Nodup := by
  have main : ∀ (l : List (List Nat)) (acc : List Nat), acc.Nodup →
      (l.foldl (fun acc T =>
        T.foldl (fun acc2 y => if y ∈ acc2 then acc2 else acc2 ++ [y]) acc) acc).Nodup := by
    intro l
    induction l with
    | nil => intro acc h; exact h
    | cons T l ih =>
      intro acc hacc
      simp only [List.foldl_cons]
      exact ih _ (foldlIns_nodup T acc hacc)
  exact main ts [] List.nodup_nil

theorem itemCount_cons (T : List Nat) (ts : List (List Nat)) (x : Nat) :
    itemCount (T :: ts) x = T.count x + itemCount ts x := by
  simp [itemCount]

theorem itemCount_pos (ts : List (List Nat)) (x : Nat) :
    0 < itemCount ts x ↔ ∃ T ∈ ts, x ∈ T := by
  induction ts with
  | nil => simp [itemCount]
  | cons T ts ih =>
    rw [itemCount_cons]
    constructor
    · intro h
      by_cases hT : 0 < T.count x
      · exact ⟨T, List.mem_cons_self T ts, List.count_pos_iff.mp hT⟩
      · have : 0 < itemCount ts x := by omega
        rcases ih.mp this with ⟨S, hS, hxS⟩
        exact ⟨S, List.mem_cons_of_mem T hS, hxS⟩
    · rintro ⟨S, hS, hxS⟩
      rcases List.mem_cons.mp hS with rfl | hS
      · have : 0 < S.count x := List.count_pos_iff.mpr hxS
        omega
      · have : 0 < itemCount ts x := ih.mpr ⟨S, hS, hxS⟩
        omega

/-- C2 counterexample: for the dataset with item frequencies 1 ↦ 3, 2 ↦ 5,
3 ↦ 3 the canonical order produced by `filterTransactions` is `[2, 3, 1]` —
the frequency tie between items 1 and 3 is broken by descending item value —
and not the `[2, 1, 3]` the claim's ascending tie-break predicts. -/
theorem c2_counterexample :
    itemCount [[1, 2, 3], [1, 2, 3], [1, 2, 3], [2, 2]] 1 = 3 ∧
    itemCount [[1, 2, 3], [1, 2, 3], [1, 2, 3], [2, 2]] 2 = 5 ∧
    itemCount [[1, 2, 3], [1, 2, 3], [1, 2, 3], [2, 2]] 3 = 3 ∧
    (filterTransactions [[1, 2, 3], [1, 2, 3], [1, 2, 3], [2, 2]] 2).2 = [2, 3, 1] ∧
    ([2, 3, 1] : List Nat) ≠ [2, 1, 3] := by
  refine ⟨by decide, by decide, by decide, ?_, by decide⟩
  decide

/-- C2 amended: the canonical order produced by `filterTransactions` lists
exactly the items occurring in the dataset, sorted by strictly descending
frequency count with ties broken by descending (not ascending) item value;
counts {1 ↦ 3, 2 ↦ 5, 3 ↦ 3} canonicalize to `[2, 3, 1]`. -/
theorem c2_canonical_order_sorted (ts : List (List Nat)) (minSupp : Nat) :
    ((filterTransactions ts minSupp).2).Pairwise
      (fun a b => itemCount ts b < itemCount ts a ∨
        (itemCount ts a = itemCount ts b ∧ b < a)) ∧
    ∀ x, x ∈ (filterTransactions ts minSupp).2 ↔ 0 < itemCount ts x := by
  have h2 : (filterTransactions ts minSupp).2 = itemsOrderOf ts := rfl
  have hperm := sortByKeyDesc_perm (itemCount ts) (collectItems ts)
  have hnd : (itemsOrderOf ts).Nodup :=
    hperm.nodup_iff.mpr (collectItems_nodup ts)
  have hpw := sortByKeyDesc_pairwise (itemCount ts) (collectItems ts)
  constructor
  · rw [h2]
    have hcomb := hpw.and hnd
    refine hcomb.imp ?_
    intro a b hab
    rcases hab with ⟨hk, hne⟩
    unfold keyGE at hk
    simp only [Bool.or_eq_true, Bool.and_eq_true, decide_eq_true_eq] at hk
    rcases hk with hk | ⟨hk1, hk2⟩
    · exact Or.inl hk
    · exact Or.inr ⟨hk1, by omega⟩
  · intro x
    rw [h2, itemsOrderOf, hperm.mem_iff, collectItems_mem, itemCount_pos]

/-! Generic lemmas about the arena primitives. -/

theorem modifyAt_length {α : Type} :
    ∀ (l : List α) (i : Nat) (f : α → α), (modifyAt l i f).length = l.length := by
  intro l
  induction l with
  | nil => intro i f; rfl
  | cons a l ih =>
    intro i f
    cases i with
    | zero => rfl
    | succ i => simp [modifyAt, ih]

theorem getElem?_modifyAt {α : Type} :
    ∀ (l : List α) (i : Nat) (f : α → α) (j : Nat),
      (modifyAt l i f)[j]? = if j = i then (l[j]?).map f else l[j]? := by
  intro l
  induction l with
  | nil => intro i f j; simp [modifyAt]
  | cons a l ih =>
    intro i f j
    cases i with
    | zero =>
      cases j with
      | zero => simp [modifyAt]
      | succ j => simp [modifyAt]
    | succ i =>
      cases j with
      | zero => simp [modifyAt]
      | succ j => simpa [modifyAt] using ih i f j

theorem getElem?_concat {α : Type} (l : List α) (a : α) (j : Nat) :
    (l ++ [a])[j]? = if j < l.length then l[j]? else if j = l.length then some a else none := by
  rw [List.getElem?_append]
  by_cases h : j < l.length
  · rw [if_pos h, if_pos h]
  · rw [if_neg h, if_neg h]
    by_cases h2 : j = l.length
    · subst h2
      simp
    · rw [if_neg h2]
      have hge : 1 ≤ j - l.length := by omega
      cases hjl : j - l.length with
      | zero => omega
      | succ m => simp

theorem lookup_cons_same {β : Type} (k : Nat) (v : β) (l : List (Nat × β)) :
    List.lookup k ((k, v) :: l) = some v := by
  rw [List.lookup_cons, show (k == k) = true from beq_self_eq_true k]

theorem lookup_cons_diff {β : Type} (k k' : Nat) (v : β) (l : List (Nat × β))
    (h : k ≠ k') : List.lookup k ((k', v) :: l) = List.lookup k l := by
  rw [List.lookup_cons, show (k == k') = false from beq_false_of_ne h]

theorem lookup_assocUpdate_self {β : Type} :
    ∀ (l : List (Nat × β)) (k : Nat) (v : β), (assocUpdate l k v).lookup k = some v := by
  intro l
  induction l with
  | nil => intro k v; exact lookup_cons_same k v []
  | cons p l ih =>
    intro k v
    rcases p with ⟨k', v'⟩
    unfold assocUpdate
    by_cases h : k' = k
    · rw [if_pos h]; exact lookup_cons_same k v l
    · rw [if_neg h, lookup_cons_diff k k' v' _ (fun he => h he.symm)]
      exact ih k v

theorem lookup_assocUpdate_ne {β : Type} :
    ∀ (l : List (Nat × β)) (k : Nat) (v : β) (k' : Nat), k' ≠ k →
      (assocUpdate l k v).lookup k' = l.lookup k' := by
  intro l
  induction l with
  | nil =>
    intro k v k' hne
    rw [show assocUpdate ([] : List (Nat × β)) k v = [(k, v)] from rfl]
    rw [lookup_cons_diff k' k v [] hne]
  | cons p l ih =>
    intro k v k' hne
    rcases p with ⟨q, w⟩
    unfold assocUpdate
    by_cases h : q = k
    · rw [if_pos h]
      subst h
      rw [lookup_cons_diff k' q v l hne, lookup_cons_diff k' q w l hne]
    · rw [if_neg h]
      by_cases h2 : k' = q
      · subst h2
        rw [lookup_cons_same, lookup_cons_same]
      · rw [lookup_cons_diff k' q w _ h2, lookup_cons_diff k' q w _ h2]
        exact ih k v k' hne

theorem lookup_concat {β : Type} :
    ∀ (l : List (Nat × β)) (k : Nat) (v : β) (k' : Nat),
      (l ++ [(k, v)]).lookup k' =
        match l.lookup k' with
        | some w => some w
        | none => if k' = k then some v else none := by
  intro l
  induction l with
  | nil =>
    intro k v k'
    by_cases h : k' = k
    · subst h
      rw [List.nil_append, lookup_cons_same, List.lookup_nil]
      simp
    · rw [List.nil_append, lookup_cons_diff k' k v [] h, List.lookup_nil]
      simp [h]
  | cons p l ih =>
    intro k v k'
    rcases p with ⟨q, w⟩
    rw [List.cons_append]
    by_cases h : k' = q
    · subst h
      rw [lookup_cons_same, lookup_cons_same]
    · rw [lookup_cons_diff k' q w _ h, lookup_cons_diff k' q w _ h]
      exact ih k v k'

theorem lookup_eq_none_iff {β : Type} :
    ∀ (l : List (Nat × β)) (k : Nat), l.lookup k = none ↔ k ∉ l.map Prod.fst := by
  intro l
  induction l with
  | nil => intro k; simp
  | cons p l ih =>
    intro k
    rcases p with ⟨q, w⟩
    simp only [List.map_cons, List.mem_cons]
    by_cases h : k = q
    · subst h
      rw [lookup_cons_same]
      simp
    · rw [lookup_cons_diff k q w _ h, ih]
      simp [h]

theorem lookup_isSome_mem {β : Type} :
    ∀ (l : List (Nat × β)) (k : Nat) (v : β), l.lookup k = some v → (k, v) ∈ l := by
  intro l
  induction l with
  | nil => intro k v h; simp at h
  | cons p l ih =>
    intro k v h
    rcases p with ⟨q, w⟩
    by_cases he : k = q
    · subst he
      rw [lookup_cons_same] at h
      injection h with h
      subst h
      exact List.mem_cons_self _ _
    · rw [lookup_cons_diff k q w _ he] at h
      exact List.mem_cons_of_mem _ (ih k v h)

/-! Unfolding lemmas for `pathOf` and the frame property: the path of a node
depends only on the item and parent fields of the nodes at or below its
identifier. -/

theorem pathOf_zero (t : FPTree) : pathOf t 0 = [] := by
  rw [pathOf]
  simp

theorem pathOf_no_node (t : FPTree) (id : Nat) (hid : id ≠ 0)
    (hnd : t.nodes[id]? = none) : pathOf t id = [] := by
  rw [pathOf, dif_neg hid, hnd]

theorem pathOf_no_parent (t : FPTree) (id : Nat) (nd : FPNode) (hid : id ≠ 0)
    (hnd : t.nodes[id]? = some nd) (hp : nd.parent = none) :
    pathOf t id = [nd.item.getD 0] := by
  rw [pathOf, dif_neg hid, hnd]
  dsimp only
  rw [hp]

theorem pathOf_node (t : FPTree) (id : Nat) (nd : FPNode) (p : Nat) (hid : id ≠ 0)
    (hnd : t.nodes[id]? = some nd) (hp : nd.parent = some p) (hlt : p < id) :
    pathOf t id = pathOf t p ++ [nd.item.getD 0] := by
  rw [pathOf, dif_neg hid, hnd]
  dsimp only
  rw [hp]
  dsimp only
  rw [dif_pos hlt]

theorem pathOf_bad_parent (t : FPTree) (id : Nat) (nd : FPNode) (p : Nat) (hid : id ≠ 0)
    (hnd : t.nodes[id]? = some nd) (hp : nd.parent = some p) (hge : ¬ p < id) :
    pathOf t id = [nd.item.getD 0] := by
  rw [pathOf, dif_neg hid, hnd]
  dsimp only
  rw [hp]
  dsimp only
  rw [dif_neg hge]

theorem pathOf_congr_le (t t' : FPTree) :
    ∀ id, (∀ j : Nat, j ≤ id →
        ((t.nodes[j]?).map fun nd : FPNode => (nd.item, nd.parent)) =
        ((t'.nodes[j]?).map fun nd : FPNode => (nd.item, nd.parent))) →
      pathOf t id = pathOf t' id := by
  intro id
  induction id using Nat.strong_induction_on with
  | _ id ih =>
    intro h
    by_cases hid : id = 0
    · subst hid
      rw [pathOf_zero, pathOf_zero]
    · have hj := h id (Nat.le_refl id)
      cases hnd : t.nodes[id]? with
      | none =>
        cases hnd' : t'.nodes[id]? with
        | none => rw [pathOf_no_node t id hid hnd, pathOf_no_node t' id hid hnd']
        | some nd' => rw [hnd, hnd'] at hj; simp at hj
      | some nd =>
        cases hnd' : t'.nodes[id]? with
        | none => rw [hnd, hnd'] at hj; simp at hj
        | some nd' =>
          rw [hnd, hnd'] at hj
          simp only [Option.map_some', Option.some.injEq, Prod.mk.injEq] at hj
          obtain ⟨hitem, hpar⟩ := hj
          cases hpp : nd.parent with
          | none =>
            rw [pathOf_no_parent t id nd hid hnd hpp,
              pathOf_no_parent t' id nd' hid hnd' (by rw [← hpar, hpp]), hitem]
          | some p =>
            by_cases hlt : p < id
            · rw [pathOf_node t id nd p hid hnd hpp hlt,
                pathOf_node t' id nd' p hid hnd' (by rw [← hpar, hpp]) hlt,
                hitem, ih p hlt (fun j hjp => h j (by omega))]
            · rw [pathOf_bad_parent t id nd p hid hnd hpp hlt,
                pathOf_bad_parent t' id nd' p hid hnd' (by rw [← hpar, hpp]) hlt, hitem]

/-! Occurrence lists, header chains and path facts on well-formed trees. -/

theorem mem_occList (t : FPTree) (x id : Nat) :
    id ∈ occList t x ↔ id < t.nodes.length ∧ itemOf t id = some x := by
  simp [occList, List.mem_filter, List.mem_range]

theorem occList_nodup (t : FPTree) (x : Nat) : (occList t x).Nodup :=
  (List.nodup_range _).filter _

theorem occList_length_le (t : FPTree) (x : Nat) :
    (occList t x).length ≤ t.nodes.length := by
  calc (occList t x).length ≤ (List.range t.nodes.length).length :=
        List.length_filter_le _ _
    _ = t.nodes.length := List.length_range _

theorem chainWalk_none (t : FPTree) : ∀ f, chainWalk t f none = [] := by
  intro f
  cases f <;> rfl

theorem chainWalk_exact (t : FPTree) :
    ∀ (l : List Nat) (a : Nat) (fuel : Nat),
      (a :: l).Chain' (fun u v => neighbourOf t u = some v) →
      neighbourOf t ((a :: l).getLast (by simp)) = none →
      (a :: l).length ≤ fuel →
      chainWalk t fuel (some a) = a :: l := by
  intro l
  induction l with
  | nil =>
    intro a fuel _ hlast hfuel
    simp only [List.getLast_singleton] at hlast
    cases fuel with
    | zero => simp at hfuel
    | succ f =>
      show a :: chainWalk t f (neighbourOf t a) = [a]
      rw [hlast, chainWalk_none]
  | cons b l ih =>
    intro a fuel hchain hlast hfuel
    have hab : neighbourOf t a = some b := (List.chain'_cons.mp hchain).1
    cases fuel with
    | zero => simp at hfuel
    | succ f =>
      show a :: chainWalk t f (neighbourOf t a) = a :: b :: l
      rw [hab]
      congr 1
      refine ih b f (List.chain'_cons.mp hchain).2 ?_ (by simpa using hfuel)
      rw [List.getLast_cons_cons] at hlast
      exact hlast

theorem nodesOf_eq_occList (t : FPTree) (hwf : WF t) (x : Nat) :
    nodesOf t x = occList t x := by
  have hh := hwf.headerOcc x
  unfold HeaderProp at hh
  unfold nodesOf
  cases hlk : t.header.lookup x with
  | none =>
    rw [hlk] at hh
    exact hh.symm
  | some ht =>
    rw [hlk] at hh
    obtain ⟨hne, hhead, hlastq, hchain, htail⟩ := hh
    cases hocc : occList t x with
    | nil => exact absurd hocc hne
    | cons a rest =>
      rw [hocc] at hhead hlastq hchain
      have ha : ht.1 = a := by
        rw [List.head?_cons] at hhead
        injection hhead with hhead
        exact hhead.symm
      dsimp only
      rw [ha]
      refine chainWalk_exact t rest a t.nodes.length hchain ?_ ?_
      · have := List.getLast?_eq_getLast (a :: rest) (by simp)
        rw [this] at hlastq
        injection hlastq with hlastq
        rw [hlastq]
        exact htail
      · calc (a :: rest).length = (occList t x).length := by rw [hocc]
          _ ≤ t.nodes.length := occList_length_le t x

theorem pathOf_spec (t : FPTree) (hwf : WF t) (id : Nat) (h1 : 1 ≤ id)
    (h2 : id < t.nodes.length) :
    ∃ p x, parentOf t id = some p ∧ p < id ∧ itemOf t id = some x ∧
      pathOf t id = pathOf t p ++ [x] := by
  obtain ⟨p, hp, hplt⟩ := hwf.parentLt id h1 h2
  obtain ⟨x, hx⟩ := hwf.itemSome id h1 h2
  cases hnd : t.nodes[id]? with
  | none => rw [parentOf, hnd] at hp; simp at hp
  | some nd =>
    rw [parentOf, hnd] at hp
    rw [itemOf, hnd] at hx
    simp only [Option.some_bind] at hp hx
    refine ⟨p, x, by rw [parentOf, hnd]; simpa using hp, hplt,
      by rw [itemOf, hnd]; simpa using hx, ?_⟩
    rw [pathOf_node t id nd p (by omega) hnd hp hplt, hx]
    rfl

theorem pathOf_ne_nil (t : FPTree) (hwf : WF t) (id : Nat) (h1 : 1 ≤ id)
    (h2 : id < t.nodes.length) : pathOf t id ≠ [] := by
  obtain ⟨p, x, _, _, _, hpath⟩ := pathOf_spec t hwf id h1 h2
  rw [hpath]
  simp

theorem pathOf_last (t : FPTree) (hwf : WF t) (id : Nat) (h1 : 1 ≤ id)
    (h2 : id < t.nodes.length) (x : Nat) (hx : itemOf t id = some x) :
    (pathOf t id).getLast? = some x := by
  obtain ⟨p, y, _, _, hy, hpath⟩ := pathOf_spec t hwf id h1 h2
  rw [hx] at hy
  injection hy with hy
  rw [hpath, ← hy]
  exact List.getLast?_concat _

theorem path_inj (t : FPTree) (hwf : WF t) :
    ∀ id₁, id₁ < t.nodes.length → ∀ id₂, id₂ < t.nodes.length → 1 ≤ id₁ → 1 ≤ id₂ →
      pathOf t id₁ = pathOf t id₂ → id₁ = id₂ := by
  intro id₁
  induction id₁ using Nat.strong_induction_on with
  | _ id₁ ih =>
    intro hlt₁ id₂ hlt₂ h1 h2 heq
    obtain ⟨p₁, x₁, hp₁, hplt₁, hx₁, hpath₁⟩ := pathOf_spec t hwf id₁ h1 hlt₁
    obtain ⟨p₂, x₂, hp₂, hplt₂, hx₂, hpath₂⟩ := pathOf_spec t hwf id₂ h2 hlt₂
    rw [hpath₁, hpath₂] at heq
    have hxeq : x₁ = x₂ := by
      have := congrArg List.getLast? heq
      rw [List.getLast?_concat, List.getLast?_concat] at this
      injection this
    have hqeq : pathOf t p₁ = pathOf t p₂ := by
      have := congrArg List.dropLast heq
      rwa [List.dropLast_concat, List.dropLast_concat] at this
    have hpeq : p₁ = p₂ := by
      by_cases hz₁ : p₁ = 0
      · subst hz₁
        rw [pathOf_zero] at hqeq
        by_contra hne
        have hz₂ : 1 ≤ p₂ := by omega
        exact pathOf_ne_nil t hwf p₂ hz₂ (by omega) hqeq.symm
      · have hz₁' : 1 ≤ p₁ := by omega
        have hz₂ : 1 ≤ p₂ := by
          by_contra hc
          have : p₂ = 0 := by omega
          subst this
          rw [pathOf_zero] at hqeq
          exact pathOf_ne_nil t hwf p₁ hz₁' (by omega) hqeq
        exact ih p₁ hplt₁ (by omega) p₂ (by omega) hz₁' hz₂ hqeq
    subst hpeq
    subst hxeq
    have hc₁ := hwf.childLookup id₁ h1 hlt₁ p₁ x₁ hp₁ hx₁
    have hc₂ := hwf.childLookup id₂ h2 hlt₂ p₁ x₁ hp₂ hx₂
    rw [hc₁] at hc₂
    exact Option.some.inj hc₂

theorem pathOf_node_fields (t : FPTree) (id p x : Nat) (hid : id ≠ 0)
    (hp : parentOf t id = some p) (hx : itemOf t id = some x) (hlt : p < id) :
    pathOf t id = pathOf t p ++ [x] := by
  cases hnd : t.nodes[id]? with
  | none => rw [parentOf, hnd] at hp; simp at hp
  | some nd =>
    rw [parentOf, hnd] at hp
    rw [itemOf, hnd] at hx
    simp only [Option.some_bind] at hp hx
    rw [pathOf_node t id nd p hid hnd hp hlt, hx]
    rfl

theorem getLast?_mem_self {α : Type} (l : List α) (a : α) (h : l.getLast? = some a) :
    a ∈ l := by
  cases l with
  | nil => simp at h
  | cons b l =>
    rw [List.getLast?_eq_getLast (b :: l) (by simp)] at h
    injection h with h
    rw [← h]
    exact List.getLast_mem _

theorem head?_append_left {α : Type} (l l' : List α) (a : α) (h : l.head? = some a) :
    (l ++ l').head? = some a := by
  cases l with
  | nil => simp at h
  | cons b l => simpa using h

theorem chain'_congr_mem (R S : Nat → Nat → Prop) :
    ∀ l : List Nat, l.Chain' R → (∀ a ∈ l, ∀ b, R a b → S a b) → l.Chain' S := by
  intro l
  induction l with
  | nil => intro _ _; exact List.chain'_nil
  | cons a l ih =>
    intro hch hcong
    cases l with
    | nil => exact List.chain'_singleton a
    | cons b l' =>
      rw [List.chain'_cons] at hch ⊢
      exact ⟨hcong a (List.mem_cons_self _ _) b hch.1,
        ih hch.2 (fun u hu v huv => hcong u (List.mem_cons_of_mem a hu) v huv)⟩

theorem chain'_extend_tail (t3 : FPTree) (R : Nat → Nat → Prop) (tl n : Nat)
    (hR : ∀ a b, R a b → a ≠ tl → neighbourOf t3 a = some b)
    (htl : neighbourOf t3 tl = some n) :
    ∀ l : List Nat, l.Chain' R → l.Nodup → l.getLast? = some tl →
      (l ++ [n]).Chain' (fun a b => neighbourOf t3 a = some b) := by
  intro l
  induction l with
  | nil => intro _ _ h; simp at h
  | cons a l ih =>
    intro hch hnd hlast
    cases l with
    | nil =>
      simp only [List.getLast?_singleton] at hlast
      injection hlast with hlast
      subst hlast
      exact List.chain'_cons.mpr ⟨htl, List.chain'_singleton n⟩
    | cons b l' =>
      rw [List.cons_append]
      rw [List.chain'_cons] at hch
      refine List.chain'_cons.mpr ⟨?_, ?_⟩
      · refine hR a b hch.1 ?_
        intro ha
        have hmem : tl ∈ b :: l' := by
          rw [List.getLast?_cons_cons] at hlast
          exact getLast?_mem_self _ _ hlast
        rw [← ha] at hmem
        exact (List.nodup_cons.mp hnd).1 hmem
      · refine ih hch.2 (List.nodup_cons.mp hnd).2 ?_
        rw [List.getLast?_cons_cons] at hlast
        exact hlast

/-! Effect of the two `addTransaction` primitive steps on the arena. -/

theorem occList_congr (t t' : FPTree) (hlen : t'.nodes.length = t.nodes.length)
    (hitem : ∀ j, itemOf t' j = itemOf t j) : ∀ x, occList t' x = occList t x := by
  intro x
  unfold occList
  rw [hlen]
  apply List.filter_congr
  intro id _
  rw [hitem]

theorem HeaderProp_congr (t t' : FPTree) (x : Nat) (hh : t'.header = t.header)
    (ho : ∀ y, occList t' y = occList t y)
    (hn : ∀ j, neighbourOf t' j = neighbourOf t j) :
    HeaderProp t x → HeaderProp t' x := by
  intro h
  have hfun : (fun a b => neighbourOf t' a = some b) =
      (fun a b => neighbourOf t a = some b) := by
    funext a b
    rw [hn]
  unfold HeaderProp at h ⊢
  rw [hh, ho, hfun]
  cases hlk : List.lookup x t.header with
  | none =>
    rw [hlk] at h
    exact h
  | some ht =>
    rw [hlk] at h
    obtain ⟨h1, h2, h3, h4, h5⟩ := h
    exact ⟨h1, h2, h3, h4, by rw [hn]; exact h5⟩

theorem incCount_step (t t1 : FPTree) (cid : Nat) (hwf : WF t) (h1 : 1 ≤ cid)
    (h2 : cid < t.nodes.length)
    (ht1 : t1 = { t with nodes := modifyAt t.nodes cid FPNode.incrementCount }) :
    WF t1 ∧ t1.nodes.length = t.nodes.length ∧
    (∀ j, itemOf t1 j = itemOf t j) ∧ (∀ j, parentOf t1 j = parentOf t j) ∧
    (∀ j, neighbourOf t1 j = neighbourOf t j) ∧ (∀ j, childrenOf t1 j = childrenOf t j) ∧
    (∀ j, pathOf t1 j = pathOf t j) ∧
    (∀ j, countOf t1 j = countOf t j + (if j = cid then 1 else 0)) ∧
    t1.header = t.header := by
  have hget : ∀ j : Nat, t1.nodes[j]? =
      if j = cid then (t.nodes[j]?).map FPNode.incrementCount else t.nodes[j]? := by
    intro j
    rw [ht1]
    exact getElem?_modifyAt t.nodes cid FPNode.incrementCount j
  have hlen : t1.nodes.length = t.nodes.length := by
    rw [ht1]
    exact modifyAt_length t.nodes cid FPNode.incrementCount
  have hitem : ∀ j, itemOf t1 j = itemOf t j := by
    intro j
    unfold itemOf
    rw [hget j]
    by_cases hj : j = cid
    · rw [if_pos hj]
      cases t.nodes[j]? <;> rfl
    · rw [if_neg hj]
  have hpar : ∀ j, parentOf t1 j = parentOf t j := by
    intro j
    unfold parentOf
    rw [hget j]
    by_cases hj : j = cid
    · rw [if_pos hj]
      cases t.nodes[j]? <;> rfl
    · rw [if_neg hj]
  have hnb : ∀ j, neighbourOf t1 j = neighbourOf t j := by
    intro j
    unfold neighbourOf
    rw [hget j]
    by_cases hj : j = cid
    · rw [if_pos hj]
      cases t.nodes[j]? <;> rfl
    · rw [if_neg hj]
  have hch : ∀ j, childrenOf t1 j = childrenOf t j := by
    intro j
    unfold childrenOf
    rw [hget j]
    by_cases hj : j = cid
    · rw [if_pos hj]
      cases t.nodes[j]? <;> rfl
    · rw [if_neg hj]
  have hpath : ∀ j, pathOf t1 j = pathOf t j := by
    intro j0
    apply pathOf_congr_le
    intro j _
    rw [hget j]
    by_cases hj : j = cid
    · rw [if_pos hj]
      cases t.nodes[j]? <;> rfl
    · rw [if_neg hj]
  have hcnt : ∀ j, countOf t1 j = countOf t j + (if j = cid then 1 else 0) := by
    intro j
    unfold countOf
    rw [hget j]
    by_cases hj : j = cid
    · rw [if_pos hj, if_pos hj]
      subst hj
      have hcp := hwf.countPos j h1 h2
      unfold countOf at hcp
      cases hnd : t.nodes[j]? with
      | none => rw [hnd] at hcp; simp at hcp
      | some nd =>
        rw [hnd] at hcp
        simp only [Option.some_bind] at hcp
        cases hc : nd.count with
        | none => rw [hc] at hcp; simp at hcp
        | some c =>
          show ((FPNode.incrementCount nd).count).getD 0 = (nd.count).getD 0 + 1
          simp [FPNode.incrementCount, hc]
    · rw [if_neg hj, if_neg hj]
      rfl
  have hhd : t1.header = t.header := by rw [ht1]
  have hocc : ∀ x, occList t1 x = occList t x := occList_congr t t1 hlen hitem
  refine ⟨?_, hlen, hitem, hpar, hnb, hch, hpath, hcnt, hhd⟩
  constructor
  · rw [ht1]
    intro hc
    have := congrArg List.length hc
    rw [modifyAt_length] at this
    exact hwf.nodesNe (List.eq_nil_of_length_eq_zero (by simpa using this))
  · rw [hitem 0]
    exact hwf.rootItem
  · rw [hpar 0]
    exact hwf.rootParent
  · intro id hi hl
    rw [hitem id]
    exact hwf.itemSome id hi (by omega)
  · intro id hi hl
    rw [hcnt id]
    have := hwf.countPos id hi (by omega)
    omega
  · intro id hi hl
    rw [hpar id]
    exact hwf.parentLt id hi (by omega)
  · intro id hl pr hpr
    rw [hch id] at hpr
    obtain ⟨ha, hb, hc, hd⟩ := hwf.childMem id (by omega) pr hpr
    exact ⟨ha, by omega, by rw [hitem]; exact hc, by rw [hpar]; exact hd⟩
  · intro c hc hl p x hp hx
    rw [hch p]
    rw [hpar c] at hp
    rw [hitem c] at hx
    exact hwf.childLookup c hc (by omega) p x hp hx
  · intro id nb hnbx
    rw [hnb id] at hnbx
    obtain ⟨ha, hb, hc⟩ := hwf.nbGt id nb hnbx
    exact ⟨ha, by omega, by rw [hitem nb, hitem id]; exact hc⟩
  · intro x
    exact HeaderProp_congr t t1 x hhd hocc hnb (hwf.headerOcc x)

theorem appendChild_step (t t2 : FPTree) (curr x : Nat) (hc : curr < t.nodes.length)
    (hnochild : (childrenOf t curr).lookup x = none)
    (ht2 : t2 = FPTree.addChild
        { t with nodes := t.nodes ++
            [{ item := some x, count := some 1, parent := some curr,
               children := [], neighbour := none }] }
        curr x t.nodes.length) :
    t2.nodes.length = t.nodes.length + 1 ∧
    (∀ j, itemOf t2 j = if j = t.nodes.length then some x else itemOf t j) ∧
    (∀ j, parentOf t2 j = if j = t.nodes.length then some curr else parentOf t j) ∧
    (∀ j, neighbourOf t2 j = if j = t.nodes.length then none else neighbourOf t j) ∧
    (∀ j, countOf t2 j = countOf t j + (if j = t.nodes.length then 1 else 0)) ∧
    (∀ j, childrenOf t2 j = if j = curr then childrenOf t curr ++ [(x, t.nodes.length)]
        else if j = t.nodes.length then [] else childrenOf t j) ∧
    t2.header = t.header := by
  obtain ⟨ndc, hndc⟩ : ∃ ndc, t.nodes[curr]? = some ndc := by
    rw [List.getElem?_eq_getElem hc]
    exact ⟨_, rfl⟩
  have hndclook : ndc.children.lookup x = none := by
    have : childrenOf t curr = ndc.children := by
      rw [childrenOf, hndc]
      rfl
    rw [← this]
    exact hnochild
  have hget : ∀ j : Nat, t2.nodes[j]? =
      if j = curr then
        some { ndc with children := ndc.children ++ [(x, t.nodes.length)] }
      else if j = t.nodes.length then
        some { item := some x, count := some 1, parent := some curr,
               children := [], neighbour := none }
      else t.nodes[j]? := by
    intro j
    rw [ht2]
    show (modifyAt (t.nodes ++ [_]) curr _)[j]? = _
    rw [getElem?_modifyAt, getElem?_concat]
    by_cases hj : j = curr
    · subst hj
      rw [if_pos rfl, if_pos rfl, if_pos hc, hndc]
      rw [Option.map_some']
      rw [hndclook]
      simp
    · rw [if_neg hj, if_neg hj]
      by_cases hjn : j = t.nodes.length
      · subst hjn
        rw [if_neg (by omega), if_pos rfl, if_pos rfl]
      · rw [if_neg hjn, if_neg hjn]
        by_cases hlt : j < t.nodes.length
        · rw [if_pos hlt]
        · rw [if_neg hlt]
          rw [List.getElem?_eq_none (by omega)]
  have hlen : t2.nodes.length = t.nodes.length + 1 := by
    rw [ht2]
    show (modifyAt (t.nodes ++ [_]) curr _).length = _
    rw [modifyAt_length, List.length_append]
    rfl
  have hcurrn : curr ≠ t.nodes.length := by omega
  refine ⟨hlen, ?_, ?_, ?_, ?_, ?_, by rw [ht2]; rfl⟩
  · intro j
    unfold itemOf
    rw [hget j]
    by_cases hj : j = curr
    · subst hj
      rw [if_pos rfl, if_neg hcurrn, hndc]
      rfl
    · rw [if_neg hj]
      by_cases hjn : j = t.nodes.length
      · subst hjn
        rw [if_pos rfl, if_pos rfl]
        rfl
      · rw [if_neg hjn, if_neg hjn]
  · intro j
    unfold parentOf
    rw [hget j]
    by_cases hj : j = curr
    · subst hj
      rw [if_pos rfl, if_neg hcurrn, hndc]
      rfl
    · rw [if_neg hj]
      by_cases hjn : j = t.nodes.length
      · subst hjn
        rw [if_pos rfl, if_pos rfl]
        rfl
      · rw [if_neg hjn, if_neg hjn]
  · intro j
    unfold neighbourOf
    rw [hget j]
    by_cases hj : j = curr
    · subst hj
      rw [if_pos rfl, if_neg hcurrn, hndc]
      rfl
    · rw [if_neg hj]
      by_cases hjn : j = t.nodes.length
      · subst hjn
        rw [if_pos rfl, if_pos rfl]
        rfl
      · rw [if_neg hjn, if_neg hjn]
  · intro j
    unfold countOf
    rw [hget j]
    by_cases hj : j = curr
    · subst hj
      rw [if_pos rfl, if_neg hcurrn, hndc]
      rfl
    · rw [if_neg hj]
      by_cases hjn : j = t.nodes.length
      · subst hjn
        rw [if_pos rfl, if_pos rfl]
        rw [List.getElem?_eq_none (by omega)]
        rfl
      · rw [if_neg hjn, if_neg hjn]
        omega
  · intro j
    unfold childrenOf
    rw [hget j]
    by_cases hj : j = curr
    · rw [if_pos hj, if_pos hj, hndc]
      rfl
    · rw [if_neg hj, if_neg hj]
      by_cases hjn : j = t.nodes.length
      · subst hjn
        rw [if_pos rfl, if_pos rfl]
        rfl
      · rw [if_neg hjn, if_neg hjn]

theorem occList_extend (t t3 : FPTree) (x : Nat)
    (hlen3 : t3.nodes.length = t.nodes.length + 1)
    (hitem3 : ∀ j, itemOf t3 j = if j = t.nodes.length then some x else itemOf t j) :
    occList t3 x = occList t x ++ [t.nodes.length] ∧
    ∀ y, y ≠ x → occList t3 y = occList t y := by
  have hrange : List.range t3.nodes.length =
      List.range t.nodes.length ++ [t.nodes.length] := by
    rw [hlen3, List.range_succ]
  constructor
  · unfold occList
    rw [hrange, List.filter_append]
    congr 1
    · apply List.filter_congr
      intro j hj
      rw [List.mem_range] at hj
      rw [hitem3 j, if_neg (by omega)]
    · rw [List.filter_singleton]
      rw [hitem3 t.nodes.length, if_pos rfl]
      simp
  · intro y hy
    unfold occList
    rw [hrange, List.filter_append]
    have h1 : List.filter (fun id => decide (itemOf t3 id = some y))
        [t.nodes.length] = [] := by
      have hxv : itemOf t3 t.nodes.length = some x := by
        rw [hitem3, if_pos rfl]
      have hd : decide (itemOf t3 t.nodes.length = some y) = false := by
        rw [hxv]
        simp only [decide_eq_false_iff_not]
        intro hcon
        injection hcon with hcon
        exact hy hcon.symm
      rw [List.filter_singleton, hd]
      rfl
    rw [h1, List.append_nil]
    apply List.filter_congr
    intro j hj
    rw [List.mem_range] at hj
    rw [hitem3 j, if_neg (by omega)]

theorem WF_of_fields (t t3 : FPTree) (curr x : Nat) (hwf : WF t)
    (hc : curr < t.nodes.length)
    (hnochild : (childrenOf t curr).lookup x = none)
    (hlen3 : t3.nodes.length = t.nodes.length + 1)
    (hitem3 : ∀ j, itemOf t3 j = if j = t.nodes.length then some x else itemOf t j)
    (hpar3 : ∀ j, parentOf t3 j = if j = t.nodes.length then some curr else parentOf t j)
    (hcnt3 : ∀ j, countOf t3 j = countOf t j + (if j = t.nodes.length then 1 else 0))
    (hch3 : ∀ j, childrenOf t3 j = if j = curr then childrenOf t curr ++ [(x, t.nodes.length)]
        else if j = t.nodes.length then [] else childrenOf t j)
    (hnbspec : ∀ id nb, neighbourOf t3 id = some nb →
        id < nb ∧ nb < t3.nodes.length ∧ itemOf t3 nb = itemOf t3 id)
    (hhp : ∀ y, HeaderProp t3 y) : WF t3 := by
  have hn1 : 1 ≤ t.nodes.length := by
    cases hnil : t.nodes with
    | nil => exact absurd hnil hwf.nodesNe
    | cons a l => simp [hnil]
  constructor
  · intro hc3
    have := congrArg List.length hc3
    rw [hlen3] at this
    simp at this
  · rw [hitem3 0, if_neg (by omega)]
    exact hwf.rootItem
  · rw [hpar3 0, if_neg (by omega)]
    exact hwf.rootParent
  · intro id hi hl
    rw [hitem3 id]
    by_cases hid : id = t.nodes.length
    · rw [if_pos hid]
      exact ⟨x, rfl⟩
    · rw [if_neg hid]
      exact hwf.itemSome id hi (by omega)
  · intro id hi hl
    rw [hcnt3 id]
    by_cases hid : id = t.nodes.length
    · rw [if_pos hid]
      omega
    · rw [if_neg hid]
      have := hwf.countPos id hi (by omega)
      omega
  · intro id hi hl
    rw [hpar3 id]
    by_cases hid : id = t.nodes.length
    · rw [if_pos hid]
      exact ⟨curr, rfl, by omega⟩
    · rw [if_neg hid]
      obtain ⟨p, hp, hplt⟩ := hwf.parentLt id hi (by omega)
      exact ⟨p, hp, hplt⟩
  · intro id hl pr hpr
    rw [hch3 id] at hpr
    by_cases hid : id = curr
    · rw [if_pos hid] at hpr
      rcases List.mem_append.mp hpr with hpr | hpr
      · obtain ⟨ha, hb, hcc, hd⟩ := hwf.childMem curr hc pr hpr
        refine ⟨ha, by omega, ?_, ?_⟩
        · rw [hitem3 pr.2, if_neg (by omega)]
          exact hcc
        · rw [hpar3 pr.2, if_neg (by omega), hid]
          exact hd
      · rw [List.mem_singleton] at hpr
        subst hpr
        refine ⟨by omega, by omega, ?_, ?_⟩
        · rw [hitem3, if_pos rfl]
        · rw [hpar3, if_pos rfl, hid]
    · rw [if_neg hid] at hpr
      by_cases hidn : id = t.nodes.length
      · rw [if_pos hidn] at hpr
        simp at hpr
      · rw [if_neg hidn] at hpr
        obtain ⟨ha, hb, hcc, hd⟩ := hwf.childMem id (by omega) pr hpr
        refine ⟨ha, by omega, ?_, ?_⟩
        · rw [hitem3 pr.2, if_neg (by omega)]
          exact hcc
        · rw [hpar3 pr.2, if_neg (by omega)]
          exact hd
  · intro c hc1 hc3 p y hp hy
    by_cases hcn : c = t.nodes.length
    · subst hcn
      rw [hpar3 _, if_pos rfl] at hp
      rw [hitem3 _, if_pos rfl] at hy
      injection hp with hp
      injection hy with hy
      subst hp
      subst hy
      rw [hch3 curr, if_pos rfl, lookup_concat]
      rw [hnochild]
      rw [if_pos rfl]
    · rw [hpar3 c, if_neg hcn] at hp
      rw [hitem3 c, if_neg hcn] at hy
      have hclt : c < t.nodes.length := by omega
      have hold := hwf.childLookup c hc1 hclt p y hp hy
      rw [hch3 p]
      by_cases hpc : p = curr
      · rw [if_pos hpc, lookup_concat]
        subst hpc
        rw [hold]
      · rw [if_neg hpc]
        have hpn : p ≠ t.nodes.length := by
          intro hpe
          obtain ⟨p', hp', hplt'⟩ := hwf.parentLt c hc1 hclt
          rw [hp] at hp'
          injection hp' with hp'
          omega
        rw [if_neg hpn]
        exact hold
  · exact hnbspec
  · exact hhp

theorem pathOf_congr_fields (t t' : FPTree) (id : Nat)
    (h : ∀ j, j ≤ id → itemOf t j = itemOf t' j ∧ parentOf t j = parentOf t' j ∧
        (t.nodes[j]?).isSome = (t'.nodes[j]?).isSome) :
    pathOf t id = pathOf t' id := by
  apply pathOf_congr_le
  intro j hj
  obtain ⟨hi, hp, hs⟩ := h j hj
  unfold itemOf at hi
  unfold parentOf at hp
  cases hnd : t.nodes[j]? with
  | none =>
    cases hnd' : t'.nodes[j]? with
    | none => rfl
    | some nd' => rw [hnd, hnd'] at hs; simp at hs
  | some nd =>
    cases hnd' : t'.nodes[j]? with
    | none => rw [hnd, hnd'] at hs; simp at hs
    | some nd' =>
      rw [hnd, hnd'] at hi hp
      simp only [Option.some_bind] at hi hp
      simp only [Option.map_some', Option.some.injEq, Prod.mk.injEq]
      exact ⟨hi, hp⟩

theorem isSome_getElem?_of_lt {α : Type} (l : List α) (j : Nat) (h : j < l.length) :
    (l[j]?).isSome = true := by
  rw [List.getElem?_eq_getElem h]
  rfl

theorem newNode_step (t t2 t3 : FPTree) (curr x : Nat) (hwf : WF t)
    (hc : curr < t.nodes.length)
    (hnochild : (childrenOf t curr).lookup x = none)
    (ht2 : t2 = FPTree.addChild
        { t with nodes := t.nodes ++
            [{ item := some x, count := some 1, parent := some curr,
               children := [], neighbour := none }] }
        curr x t.nodes.length)
    (ht3 : t3 = t2.updateHeader x t.nodes.length) :
    WF t3 ∧ t3.nodes.length = t.nodes.length + 1 ∧
    (∀ j, j < t.nodes.length → pathOf t3 j = pathOf t j) ∧
    pathOf t3 t.nodes.length = pathOf t curr ++ [x] ∧
    (∀ j, countOf t3 j = countOf t j + (if j = t.nodes.length then 1 else 0)) ∧
    (∀ j, itemOf t3 j = if j = t.nodes.length then some x else itemOf t j) := by
  obtain ⟨hlen2, hitem2, hpar2, hnb2, hcnt2, hch2, hhd2⟩ :=
    appendChild_step t t2 curr x hc hnochild ht2
  have hn1 : 1 ≤ t.nodes.length := by
    cases hnil : t.nodes with
    | nil => exact absurd hnil hwf.nodesNe
    | cons a l => simp [hnil]
  cases hlk : t.header.lookup x with
  | some ht =>
    have ht3' : t3 = { t2 with
        nodes := modifyAt t2.nodes ht.2
          (fun nd => { nd with neighbour := some t.nodes.length }),
        header := assocUpdate t2.header x (ht.1, t.nodes.length) } := by
      rw [ht3, FPTree.updateHeader, hhd2, hlk]
    have hhp := hwf.headerOcc x
    unfold HeaderProp at hhp
    rw [hlk] at hhp
    obtain ⟨hne, hhead, hlastq, hchain, htail⟩ := hhp
    have htlmem : ht.2 ∈ occList t x := getLast?_mem_self _ _ hlastq
    obtain ⟨htlN, htlI⟩ := (mem_occList t x ht.2).mp htlmem
    have hget3 : ∀ j : Nat, t3.nodes[j]? =
        if j = ht.2 then
          (t2.nodes[j]?).map (fun nd => { nd with neighbour := some t.nodes.length })
        else t2.nodes[j]? := by
      intro j
      rw [ht3']
      exact getElem?_modifyAt t2.nodes ht.2 _ j
    have hlen3 : t3.nodes.length = t.nodes.length + 1 := by
      rw [ht3']
      show (modifyAt t2.nodes ht.2 _).length = _
      rw [modifyAt_length]
      exact hlen2
    have hitemA : ∀ j, itemOf t3 j = itemOf t2 j := by
      intro j
      unfold itemOf
      rw [hget3 j]
      by_cases hj : j = ht.2
      · rw [if_pos hj]
        cases t2.nodes[j]? <;> rfl
      · rw [if_neg hj]
    have hparA : ∀ j, parentOf t3 j = parentOf t2 j := by
      intro j
      unfold parentOf
      rw [hget3 j]
      by_cases hj : j = ht.2
      · rw [if_pos hj]
        cases t2.nodes[j]? <;> rfl
      · rw [if_neg hj]
    have hcntA : ∀ j, countOf t3 j = countOf t2 j := by
      intro j
      unfold countOf
      rw [hget3 j]
      by_cases hj : j = ht.2
      · rw [if_pos hj]
        cases t2.nodes[j]? <;> rfl
      · rw [if_neg hj]
    have hchA : ∀ j, childrenOf t3 j = childrenOf t2 j := by
      intro j
      unfold childrenOf
      rw [hget3 j]
      by_cases hj : j = ht.2
      · rw [if_pos hj]
        cases t2.nodes[j]? <;> rfl
      · rw [if_neg hj]
    have hitem3 : ∀ j, itemOf t3 j = if j = t.nodes.length then some x else itemOf t j := by
      intro j
      rw [hitemA j, hitem2 j]
    have hpar3 : ∀ j, parentOf t3 j = if j = t.nodes.length then some curr else parentOf t j := by
      intro j
      rw [hparA j, hpar2 j]
    have hcnt3 : ∀ j, countOf t3 j = countOf t j + (if j = t.nodes.length then 1 else 0) := by
      intro j
      rw [hcntA j, hcnt2 j]
    have hch3 : ∀ j, childrenOf t3 j =
        if j = curr then childrenOf t curr ++ [(x, t.nodes.length)]
        else if j = t.nodes.length then [] else childrenOf t j := by
      intro j
      rw [hchA j, hch2 j]
    have hnb3 : ∀ j, neighbourOf t3 j =
        if j = ht.2 then some t.nodes.length
        else if j = t.nodes.length then none else neighbourOf t j := by
      intro j
      by_cases hj : j = ht.2
      · rw [if_pos hj]
        unfold neighbourOf
        rw [hget3 j, if_pos hj]
        have hjlt : j < t2.nodes.length := by omega
        obtain ⟨nd2, hnd2⟩ : ∃ nd2, t2.nodes[j]? = some nd2 := by
          rw [List.getElem?_eq_getElem hjlt]
          exact ⟨_, rfl⟩
        rw [hnd2]
        rfl
      · rw [if_neg hj]
        have : neighbourOf t3 j = neighbourOf t2 j := by
          unfold neighbourOf
          rw [hget3 j, if_neg hj]
        rw [this, hnb2 j]
    have hsomeEq : ∀ j, j < t.nodes.length →
        (t3.nodes[j]?).isSome = (t.nodes[j]?).isSome := by
      intro j hj
      rw [isSome_getElem?_of_lt t3.nodes j (by omega),
        isSome_getElem?_of_lt t.nodes j hj]
    have hpaths : ∀ j, j < t.nodes.length → pathOf t3 j = pathOf t j := by
      intro j0 hj0
      apply pathOf_congr_fields
      intro j hj
      have hjlt : j < t.nodes.length := by omega
      refine ⟨?_, ?_, hsomeEq j hjlt⟩
      · rw [hitem3 j, if_neg (by omega)]
      · rw [hpar3 j, if_neg (by omega)]
    have hpathn : pathOf t3 t.nodes.length = pathOf t curr ++ [x] := by
      rw [pathOf_node_fields t3 t.nodes.length curr x (by omega)
        (by rw [hpar3, if_pos rfl]) (by rw [hitem3, if_pos rfl]) (by omega)]
      rw [hpaths curr hc]
    obtain ⟨hocc3, hocc3'⟩ := occList_extend t t3 x hlen3 hitem3
    have hnbspec : ∀ id nb, neighbourOf t3 id = some nb →
        id < nb ∧ nb < t3.nodes.length ∧ itemOf t3 nb = itemOf t3 id := by
      intro id nb hnb
      rw [hnb3 id] at hnb
      by_cases h1 : id = ht.2
      · rw [if_pos h1] at hnb
        injection hnb with hnb
        subst hnb
        refine ⟨by omega, by omega, ?_⟩
        rw [hitem3 t.nodes.length, if_pos rfl, hitem3 id, if_neg (by omega), h1, htlI]
      · rw [if_neg h1] at hnb
        by_cases h2 : id = t.nodes.length
        · rw [if_pos h2] at hnb
          exact absurd hnb (by simp)
        · rw [if_neg h2] at hnb
          obtain ⟨ha, hb, hcc⟩ := hwf.nbGt id nb hnb
          refine ⟨ha, by omega, ?_⟩
          rw [hitem3 nb, if_neg (by omega), hitem3 id, if_neg h2]
          exact hcc
    have hhp3 : ∀ y, HeaderProp t3 y := by
      intro y
      unfold HeaderProp
      by_cases hy : y = x
      · subst hy
        have hlk3 : t3.header.lookup y = some (ht.1, t.nodes.length) := by
          rw [ht3']
          show (assocUpdate t2.header y (ht.1, t.nodes.length)).lookup y = _
          rw [lookup_assocUpdate_self]
        rw [hlk3]
        dsimp only
        refine ⟨?_, ?_, ?_, ?_, ?_⟩
        · rw [hocc3]
          simp
        · rw [hocc3]
          exact head?_append_left _ _ _ hhead
        · rw [hocc3, List.getLast?_concat]
        · rw [hocc3]
          refine chain'_extend_tail t3 (fun a b => neighbourOf t a = some b)
            ht.2 t.nodes.length ?_ ?_ (occList t y) hchain (occList_nodup t y) hlastq
          · intro a b hab hane
            have han : a ≠ t.nodes.length := by
              intro hae
              rw [hae, neighbourOf, List.getElem?_eq_none (Nat.le_refl _)] at hab
              simp at hab
            rw [hnb3 a, if_neg hane, if_neg han]
            exact hab
          · rw [hnb3, if_pos rfl]
        · show neighbourOf t3 t.nodes.length = none
          rw [hnb3, if_neg (by omega), if_pos rfl]
      · have hlk3 : t3.header.lookup y = t.header.lookup y := by
          rw [ht3']
          show (assocUpdate t2.header x (ht.1, t.nodes.length)).lookup y = _
          rw [lookup_assocUpdate_ne _ _ _ _ hy, hhd2]
        rw [hlk3]
        have hocy := hocc3' y hy
        have hh := hwf.headerOcc y
        unfold HeaderProp at hh
        cases hlky : t.header.lookup y with
        | none =>
          rw [hlky] at hh
          rw [hocy]
          exact hh
        | some hty =>
          rw [hlky] at hh
          obtain ⟨h1, h2, h3, h4, h5⟩ := hh
          have hnbmem : ∀ a ∈ occList t y, neighbourOf t3 a = neighbourOf t a := by
            intro a ha
            obtain ⟨haN, haI⟩ := (mem_occList t y a).mp ha
            have ha1 : a ≠ ht.2 := by
              intro hae
              rw [hae, htlI] at haI
              injection haI with haI
              exact hy haI.symm
            rw [hnb3 a, if_neg ha1, if_neg (by omega)]
          refine ⟨by rw [hocy]; exact h1, by rw [hocy]; exact h2,
            by rw [hocy]; exact h3, ?_, ?_⟩
          · rw [hocy]
            refine chain'_congr_mem _ _ _ h4 ?_
            intro a ha b hab
            rw [hnbmem a ha]
            exact hab
          · have hmemtl : hty.2 ∈ occList t y := getLast?_mem_self _ _ h3
            rw [hnbmem hty.2 hmemtl]
            exact h5
    refine ⟨WF_of_fields t t3 curr x hwf hc hnochild hlen3 hitem3 hpar3 hcnt3 hch3
      hnbspec hhp3, hlen3, hpaths, hpathn, hcnt3, hitem3⟩
  | none =>
    have ht3' : t3 = { t2 with
        header := assocUpdate t2.header x (t.nodes.length, t.nodes.length) } := by
      rw [ht3, FPTree.updateHeader, hhd2, hlk]
    have hhp := hwf.headerOcc x
    unfold HeaderProp at hhp
    rw [hlk] at hhp
    have hget3 : ∀ j : Nat, t3.nodes[j]? = t2.nodes[j]? := by
      intro j
      rw [ht3']
    have hlen3 : t3.nodes.length = t.nodes.length + 1 := by
      rw [ht3']
      exact hlen2
    have hitem3 : ∀ j, itemOf t3 j = if j = t.nodes.length then some x else itemOf t j := by
      intro j
      rw [show itemOf t3 j = itemOf t2 j from by unfold itemOf; rw [hget3 j], hitem2 j]
    have hpar3 : ∀ j, parentOf t3 j = if j = t.nodes.length then some curr else parentOf t j := by
      intro j
      rw [show parentOf t3 j = parentOf t2 j from by unfold parentOf; rw [hget3 j], hpar2 j]
    have hcnt3 : ∀ j, countOf t3 j = countOf t j + (if j = t.nodes.length then 1 else 0) := by
      intro j
      rw [show countOf t3 j = countOf t2 j from by unfold countOf; rw [hget3 j], hcnt2 j]
    have hch3 : ∀ j, childrenOf t3 j =
        if j = curr then childrenOf t curr ++ [(x, t.nodes.length)]
        else if j = t.nodes.length then [] else childrenOf t j := by
      intro j
      rw [show childrenOf t3 j = childrenOf t2 j from by unfold childrenOf; rw [hget3 j], hch2 j]
    have hnb3 : ∀ j, neighbourOf t3 j =
        if j = t.nodes.length then none else neighbourOf t j := by
      intro j
      rw [show neighbourOf t3 j = neighbourOf t2 j from by unfold neighbourOf; rw [hget3 j], hnb2 j]
    have hsomeEq : ∀ j, j < t.nodes.length →
        (t3.nodes[j]?).isSome = (t.nodes[j]?).isSome := by
      intro j hj
      rw [isSome_getElem?_of_lt t3.nodes j (by omega),
        isSome_getElem?_of_lt t.nodes j hj]
    have hpaths : ∀ j, j < t.nodes.length → pathOf t3 j = pathOf t j := by
      intro j0 hj0
      apply pathOf_congr_fields
      intro j hj
      have hjlt : j < t.nodes.length := by omega
      refine ⟨?_, ?_, hsomeEq j hjlt⟩
      · rw [hitem3 j, if_neg (by omega)]
      · rw [hpar3 j, if_neg (by omega)]
    have hpathn : pathOf t3 t.nodes.length = pathOf t curr ++ [x] := by
      rw [pathOf_node_fields t3 t.nodes.length curr x (by omega)
        (by rw [hpar3, if_pos rfl]) (by rw [hitem3, if_pos rfl]) (by omega)]
      rw [hpaths curr hc]
    obtain ⟨hocc3, hocc3'⟩ := occList_extend t t3 x hlen3 hitem3
    have hnbspec : ∀ id nb, neighbourOf t3 id = some nb →
        id < nb ∧ nb < t3.nodes.length ∧ itemOf t3 nb = itemOf t3 id := by
      intro id nb hnb
      rw [hnb3 id] at hnb
      by_cases h2 : id = t.nodes.length
      · rw [if_pos h2] at hnb
        exact absurd hnb (by simp)
      · rw [if_neg h2] at hnb
        obtain ⟨ha, hb, hcc⟩ := hwf.nbGt id nb hnb
        refine ⟨ha, by omega, ?_⟩
        rw [hitem3 nb, if_neg (by omega), hitem3 id, if_neg h2]
        exact hcc
    have hhp3 : ∀ y, HeaderProp t3 y := by
      intro y
      unfold HeaderProp
      by_cases hy : y = x
      · subst hy
        have hlk3 : t3.header.lookup y = some (t.nodes.length, t.nodes.length) := by
          rw [ht3']
          show (assocUpdate t2.header y (t.nodes.length, t.nodes.length)).lookup y = _
          rw [lookup_assocUpdate_self]
        rw [hlk3]
        dsimp only
        have hocc1 : occList t3 y = [t.nodes.length] := by
          rw [hocc3, hhp]
          rfl
        refine ⟨?_, ?_, ?_, ?_, ?_⟩
        · rw [hocc1]
          simp
        · rw [hocc1]
          rfl
        · rw [hocc1]
          rfl
        · rw [hocc1]
          exact List.chain'_singleton _
        · show neighbourOf t3 t.nodes.length = none
          rw [hnb3, if_pos rfl]
      · have hlk3 : t3.header.lookup y = t.header.lookup y := by
          rw [ht3']
          show (assocUpdate t2.header x (t.nodes.length, t.nodes.length)).lookup y = _
          rw [lookup_assocUpdate_ne _ _ _ _ hy, hhd2]
        rw [hlk3]
        have hocy := hocc3' y hy
        have hh := hwf.headerOcc y
        unfold HeaderProp at hh
        cases hlky : t.header.lookup y with
        | none =>
          rw [hlky] at hh
          rw [hocy]
          exact hh
        | some hty =>
          rw [hlky] at hh
          obtain ⟨h1, h2, h3, h4, h5⟩ := hh
          have hnbmem : ∀ a ∈ occList t y, neighbourOf t3 a = neighbourOf t a := by
            intro a ha
            obtain ⟨haN, haI⟩ := (mem_occList t y a).mp ha
            rw [hnb3 a, if_neg (by omega)]
          refine ⟨by rw [hocy]; exact h1, by rw [hocy]; exact h2,
            by rw [hocy]; exact h3, ?_, ?_⟩
          · rw [hocy]
            refine chain'_congr_mem _ _ _ h4 ?_
            intro a ha b hab
            rw [hnbmem a ha]
            exact hab
          · have hmemtl : hty.2 ∈ occList t y := getLast?_mem_self _ _ h3
            rw [hnbmem hty.2 hmemtl]
            exact h5
    refine ⟨WF_of_fields t t3 curr x hwf hc hnochild hlen3 hitem3 hpar3 hcnt3 hch3
      hnbspec hhp3, hlen3, hpaths, hpathn, hcnt3, hitem3⟩

/-! Splitting the strict-extension condition along the first inserted item. -/

theorem ext_split (P q : List Nat) (a : Nat) (r : List Nat) :
    (P <+: q ∧ q ≠ P ∧ q <+: P ++ a :: r) ↔
    (q = P ++ [a] ∨
      ((P ++ [a]) <+: q ∧ q ≠ P ++ [a] ∧ q <+: (P ++ [a]) ++ r)) := by
  constructor
  · rintro ⟨⟨s, hs⟩, hne, hq2⟩
    rw [← hs] at hne hq2 ⊢
    cases s with
    | nil => simp at hne
    | cons b s' =>
      have hbs : b :: s' <+: a :: r := (List.prefix_append_right_inj P).mp hq2
      obtain ⟨hba, hs'⟩ := List.cons_prefix_cons.mp hbs
      subst hba
      cases s' with
      | nil => left; rfl
      | cons c s'' =>
        right
        refine ⟨⟨c :: s'', by simp⟩, ?_, ?_⟩
        · intro he
          have := congrArg List.length he
          simp at this
        · rw [List.append_assoc]
          simpa using hq2
  · rintro (rfl | ⟨⟨s, hs⟩, hne, hq2⟩)
    · refine ⟨⟨[a], rfl⟩, ?_, ⟨r, by simp⟩⟩
      intro he
      have := congrArg List.length he
      simp at this
    · rw [← hs] at hq2 ⊢
      refine ⟨⟨[a] ++ s, by simp⟩, ?_, ?_⟩
      · intro he
        have := congrArg List.length he
        simp at this
      · rw [List.append_assoc] at hq2
        simpa using hq2

theorem extPrefixCount_nil (P q : List Nat) : extPrefixCount P [] q = 0 := by
  unfold extPrefixCount
  rw [if_neg]
  rintro ⟨h1, h2, h3⟩
  rw [List.append_nil] at h3
  exact h2 (h3.eq_of_length (Nat.le_antisymm h3.length_le h1.length_le))

theorem extPrefixCount_cons (P q : List Nat) (a : Nat) (r : List Nat) :
    extPrefixCount P (a :: r) q =
      (if q = P ++ [a] then 1 else 0) + extPrefixCount (P ++ [a]) r q := by
  unfold extPrefixCount
  by_cases hq : q = P ++ [a]
  · rw [if_pos hq, if_pos ((ext_split P q a r).mpr (Or.inl hq)), if_neg]
    rintro ⟨_, hne, _⟩
    exact hne hq
  · rw [if_neg hq, Nat.zero_add]
    by_cases hc : (P ++ [a]) <+: q ∧ q ≠ P ++ [a] ∧ q <+: (P ++ [a]) ++ r
    · rw [if_pos hc, if_pos ((ext_split P q a r).mpr (Or.inr hc))]
    · rw [if_neg hc, if_neg]
      intro hx
      rcases (ext_split P q a r).mp hx with h | h
      · exact hq h
      · exact hc h

theorem pathOf_nonempty_bounds (t : FPTree) (j : Nat) (h : pathOf t j ≠ []) :
    1 ≤ j ∧ j < t.nodes.length := by
  constructor
  · by_contra hc
    have hz : j = 0 := by omega
    subst hz
    exact h (pathOf_zero t)
  · by_contra hc
    have hnone : t.nodes[j]? = none := List.getElem?_eq_none (by omega)
    by_cases hz : j = 0
    · subst hz
      exact h (pathOf_zero t)
    · exact h (pathOf_no_node t j hz hnone)

/-- The main induction: inserting the remaining items `rest` below the node
`curr` preserves well-formedness, keeps the paths of existing nodes, adds one
to the count of exactly the nodes whose path strictly extends `curr`'s path
within `path(curr) ++ rest`, and extends the available paths (and items) by
exactly those extensions. -/
theorem addTransactionGo_spec :
    ∀ (rest : List Nat) (t : FPTree) (curr : Nat), WF t → curr < t.nodes.length →
      WF (addTransactionGo t curr rest) ∧
      t.nodes.length ≤ (addTransactionGo t curr rest).nodes.length ∧
      (∀ j, j < t.nodes.length → pathOf (addTransactionGo t curr rest) j = pathOf t j) ∧
      (∀ j, countOf (addTransactionGo t curr rest) j =
          countOf t j +
            extPrefixCount (pathOf t curr) rest (pathOf (addTransactionGo t curr rest) j)) ∧
      (∀ q, (∃ id, 1 ≤ id ∧ id < (addTransactionGo t curr rest).nodes.length ∧
              pathOf (addTransactionGo t curr rest) id = q) ↔
          ((∃ id, 1 ≤ id ∧ id < t.nodes.length ∧ pathOf t id = q) ∨
           (pathOf t curr <+: q ∧ q ≠ pathOf t curr ∧ q <+: pathOf t curr ++ rest))) ∧
      (∀ y, (∃ id, 1 ≤ id ∧ id < (addTransactionGo t curr rest).nodes.length ∧
              itemOf (addTransactionGo t curr rest) id = some y) ↔
          ((∃ id, 1 ≤ id ∧ id < t.nodes.length ∧ itemOf t id = some y) ∨ y ∈ rest)) := by
  intro rest
  induction rest with
  | nil =>
    intro t curr hwf hc
    refine ⟨hwf, Nat.le_refl _, fun j _ => rfl, ?_, ?_, ?_⟩
    · intro j
      show countOf t j = countOf t j + extPrefixCount (pathOf t curr) [] (pathOf t j)
      rw [extPrefixCount_nil]
      omega
    · intro q
      show (∃ id, 1 ≤ id ∧ id < t.nodes.length ∧ pathOf t id = q) ↔ _
      constructor
      · intro h
        exact Or.inl h
      · rintro (h | ⟨h1, h2, h3⟩)
        · exact h
        · rw [List.append_nil] at h3
          exact absurd (h3.eq_of_length (Nat.le_antisymm h3.length_le h1.length_le)) h2
    · intro y
      show (∃ id, 1 ≤ id ∧ id < t.nodes.length ∧ itemOf t id = some y) ↔ _
      constructor
      · intro h
        exact Or.inl h
      · rintro (h | h)
        · exact h
        · simp at h
  | cons a rest' ih =>
    intro t curr hwf hc
    obtain ⟨ndc, hndc⟩ : ∃ ndc, t.nodes[curr]? = some ndc := by
      rw [List.getElem?_eq_getElem hc]
      exact ⟨_, rfl⟩
    have hchnd : childrenOf t curr = ndc.children := by
      rw [childrenOf, hndc]
      rfl
    simp only [addTransactionGo]
    cases hsc : (t.nodes[curr]?).bind (fun nd => nd.searchChildren a) with
    | some cid =>
      dsimp only
      have hcid : (childrenOf t curr).lookup a = some cid := by
        rw [hndc] at hsc
        simp only [Option.some_bind] at hsc
        rw [hchnd]
        exact hsc
      have hmem := lookup_isSome_mem _ _ _ hcid
      obtain ⟨hcid1, hcidN, hcidI, hcidP⟩ := hwf.childMem curr hc (a, cid) hmem
      have hcurrlt : curr < cid := by
        obtain ⟨p, hp, hplt⟩ := hwf.parentLt cid hcid1 hcidN
        rw [hcidP] at hp
        injection hp with hp
        omega
      have hpathcid : pathOf t cid = pathOf t curr ++ [a] :=
        pathOf_node_fields t cid curr a (by omega) hcidP hcidI hcurrlt
      obtain ⟨hwf1, hlen1, hitem1, hpar1, hnb1, hch1, hpath1, hcnt1, hhd1⟩ :=
        incCount_step t _ cid hwf hcid1 hcidN rfl
      obtain ⟨hwf', hlen', hpaths', hcnt', hpathsq', hitems'⟩ := ih _ cid hwf1 (by omega)
      have hpath1cid : pathOf { t with nodes := modifyAt t.nodes cid FPNode.incrementCount } cid =
          pathOf t curr ++ [a] := by
        rw [hpath1 cid, hpathcid]
      refine ⟨hwf', by omega, ?_, ?_, ?_, ?_⟩
      · intro j hj
        rw [hpaths' j (by omega), hpath1 j]
      · intro j
        rw [hcnt' j, hcnt1 j, hpath1cid, extPrefixCount_cons]
        have hiff : (j = cid) ↔
            (pathOf (addTransactionGo { t with nodes := modifyAt t.nodes cid FPNode.incrementCount } cid rest') j
              = pathOf t curr ++ [a]) := by
          constructor
          · intro hj
            subst hj
            rw [hpaths' j (by omega), hpath1 j, hpathcid]
          · intro hq
            have hqne : pathOf (addTransactionGo { t with nodes := modifyAt t.nodes cid FPNode.incrementCount } cid rest') j ≠ [] := by
              rw [hq]
              simp
            obtain ⟨hj1, hj2⟩ := pathOf_nonempty_bounds _ j hqne
            have hcidpath : pathOf (addTransactionGo { t with nodes := modifyAt t.nodes cid FPNode.incrementCount } cid rest') cid
                = pathOf t curr ++ [a] := by
              rw [hpaths' cid (by omega), hpath1cid]
            refine path_inj _ hwf' j hj2 cid ?_ hj1 hcid1 ?_
            · omega
            · rw [hq, hcidpath]
        by_cases hj : j = cid
        · rw [if_pos hj, if_pos (hiff.mp hj)]
          omega
        · rw [if_neg hj, if_neg (fun hq => hj (hiff.mpr hq))]
          omega
      · intro q
        rw [hpathsq' q, hpath1cid]
        have hp1 : ∀ q', (∃ id, 1 ≤ id ∧
            id < ({ t with nodes := modifyAt t.nodes cid FPNode.incrementCount } : FPTree).nodes.length ∧
            pathOf { t with nodes := modifyAt t.nodes cid FPNode.incrementCount } id = q') ↔
            (∃ id, 1 ≤ id ∧ id < t.nodes.length ∧ pathOf t id = q') := by
          intro q'
          constructor
          · rintro ⟨id, hi1, hi2, hi3⟩
            exact ⟨id, hi1, by omega, by rw [← hpath1 id]; exact hi3⟩
          · rintro ⟨id, hi1, hi2, hi3⟩
            exact ⟨id, hi1, by omega, by rw [hpath1 id]; exact hi3⟩
        rw [hp1 q]
        constructor
        · rintro (h | ⟨h1, h2, h3⟩)
          · exact Or.inl h
          · refine Or.inr ((ext_split (pathOf t curr) q a rest').mpr (Or.inr ⟨h1, h2, h3⟩))
        · rintro (h | hext)
          · exact Or.inl h
          · rcases (ext_split (pathOf t curr) q a rest').mp hext with hq | hq
            · exact Or.inl ⟨cid, hcid1, hcidN, by rw [hpathcid, hq]⟩
            · exact Or.inr hq
      · intro y
        rw [hitems' y]
        have hp1 : (∃ id, 1 ≤ id ∧
            id < ({ t with nodes := modifyAt t.nodes cid FPNode.incrementCount } : FPTree).nodes.length ∧
            itemOf { t with nodes := modifyAt t.nodes cid FPNode.incrementCount } id = some y) ↔
            (∃ id, 1 ≤ id ∧ id < t.nodes.length ∧ itemOf t id = some y) := by
          constructor
          · rintro ⟨id, hi1, hi2, hi3⟩
            exact ⟨id, hi1, by omega, by rw [← hitem1 id]; exact hi3⟩
          · rintro ⟨id, hi1, hi2, hi3⟩
            exact ⟨id, hi1, by omega, by rw [hitem1 id]; exact hi3⟩
        rw [hp1]
        constructor
        · rintro (h | h)
          · exact Or.inl h
          · exact Or.inr (List.mem_cons_of_mem a h)
        · rintro (h | h)
          · exact Or.inl h
          · rcases List.mem_cons.mp h with rfl | h
            · exact Or.inl ⟨cid, hcid1, hcidN, hcidI⟩
            · exact Or.inr h
    | none =>
      dsimp only
      have hnochild : (childrenOf t curr).lookup a = none := by
        rw [hndc] at hsc
        simp only [Option.some_bind] at hsc
        rw [hchnd]
        exact hsc
      have hn1 : 1 ≤ t.nodes.length := by
        cases hnil : t.nodes with
        | nil => exact absurd hnil hwf.nodesNe
        | cons b l => simp [hnil]
      obtain ⟨hwf3, hlen3, hpaths3, hpathn3, hcnt3, hitem3⟩ :=
        newNode_step t _ _ curr a hwf hc hnochild rfl rfl
      generalize hT3 : FPTree.updateHeader (FPTree.addChild
          { t with nodes := t.nodes ++
              [{ item := some a, count := some 1, parent := some curr,
                 children := [], neighbour := none }] }
          curr a t.nodes.length) a t.nodes.length = T3
        at hwf3 hlen3 hpaths3 hpathn3 hcnt3 hitem3 ⊢
      obtain ⟨hwf', hlen', hpaths', hcnt', hpathsq', hitems'⟩ :=
        ih T3 t.nodes.length hwf3 (by omega)
      have hpath3n : pathOf T3 t.nodes.length = pathOf t curr ++ [a] := hpathn3
      refine ⟨hwf', by omega, ?_, ?_, ?_, ?_⟩
      · intro j hj
        rw [hpaths' j (by omega), hpaths3 j hj]
      · intro j
        rw [hcnt' j, hcnt3 j, hpath3n, extPrefixCount_cons]
        have hiff : (j = t.nodes.length) ↔
            (pathOf (addTransactionGo T3 t.nodes.length rest') j = pathOf t curr ++ [a]) := by
          constructor
          · intro hj
            subst hj
            rw [hpaths' t.nodes.length (by omega), hpath3n]
          · intro hq
            have hqne : pathOf (addTransactionGo T3 t.nodes.length rest') j ≠ [] := by
              rw [hq]
              simp
            obtain ⟨hj1, hj2⟩ := pathOf_nonempty_bounds _ j hqne
            have hnpath : pathOf (addTransactionGo T3 t.nodes.length rest') t.nodes.length
                = pathOf t curr ++ [a] := by
              rw [hpaths' t.nodes.length (by omega), hpath3n]
            refine path_inj _ hwf' j hj2 t.nodes.length ?_ hj1 (by omega) ?_
            · omega
            · rw [hq, hnpath]
        by_cases hj : j = t.nodes.length
        · rw [if_pos hj, if_pos (hiff.mp hj)]
          omega
        · rw [if_neg hj, if_neg (fun hq => hj (hiff.mpr hq))]
          omega
      · intro q
        rw [hpathsq' q, hpath3n]
        have hp3 : (∃ id, 1 ≤ id ∧ id < T3.nodes.length ∧ pathOf T3 id = q) ↔
            ((∃ id, 1 ≤ id ∧ id < t.nodes.length ∧ pathOf t id = q) ∨
              q = pathOf t curr ++ [a]) := by
          constructor
          · rintro ⟨id, hi1, hi2, hi3⟩
            rw [hlen3] at hi2
            by_cases hin : id = t.nodes.length
            · subst hin
              rw [hpathn3] at hi3
              exact Or.inr hi3.symm
            · exact Or.inl ⟨id, hi1, by omega, by rw [← hpaths3 id (by omega)]; exact hi3⟩
          · rintro (⟨id, hi1, hi2, hi3⟩ | hq)
            · exact ⟨id, hi1, by omega, by rw [hpaths3 id hi2]; exact hi3⟩
            · exact ⟨t.nodes.length, by omega, by omega, by rw [hpathn3, hq]⟩
        rw [hp3]
        constructor
        · rintro ((h | hq) | ⟨h1, h2, h3⟩)
          · exact Or.inl h
          · exact Or.inr ((ext_split (pathOf t curr) q a rest').mpr (Or.inl hq))
          · exact Or.inr ((ext_split (pathOf t curr) q a rest').mpr (Or.inr ⟨h1, h2, h3⟩))
        · rintro (h | hext)
          · exact Or.inl (Or.inl h)
          · rcases (ext_split (pathOf t curr) q a rest').mp hext with hq | hq
            · exact Or.inl (Or.inr hq)
            · exact Or.inr hq
      · intro y
        rw [hitems' y]
        have hp3 : (∃ id, 1 ≤ id ∧ id < T3.nodes.length ∧ itemOf T3 id = some y) ↔
            ((∃ id, 1 ≤ id ∧ id < t.nodes.length ∧ itemOf t id = some y) ∨ y = a) := by
          constructor
          · rintro ⟨id, hi1, hi2, hi3⟩
            rw [hlen3] at hi2
            rw [hitem3 id] at hi3
            by_cases hin : id = t.nodes.length
            · rw [if_pos hin] at hi3
              injection hi3 with hi3
              exact Or.inr hi3.symm
            · rw [if_neg hin] at hi3
              exact Or.inl ⟨id, hi1, by omega, hi3⟩
          · rintro (⟨id, hi1, hi2, hi3⟩ | hq)
            · refine ⟨id, hi1, by omega, ?_⟩
              rw [hitem3 id, if_neg (by omega)]
              exact hi3
            · refine ⟨t.nodes.length, by omega, by omega, ?_⟩
              rw [hitem3 t.nodes.length, if_pos rfl, hq]
        rw [hp3]
        constructor
        · rintro ((h | hq) | h)
          · exact Or.inl h
          · exact Or.inr (by rw [hq]; exact List.mem_cons_self a rest')
          · exact Or.inr (List.mem_cons_of_mem a h)
        · rintro (h | h)
          · exact Or.inl (Or.inl h)
          · rcases List.mem_cons.mp h with rfl | h
            · exact Or.inl (Or.inr rfl)
            · exact Or.inr h

/-! The construction invariant for `buildFPTree`. -/

theorem WF_empty : WF emptyFPTree := by
  constructor
  · simp [emptyFPTree]
  · rfl
  · rfl
  · intro id h1 h2
    simp [emptyFPTree] at h2
    omega
  · intro id h1 h2
    simp [emptyFPTree] at h2
    omega
  · intro id h1 h2
    simp [emptyFPTree] at h2
    omega
  · intro id _ pr hpr
    have hch : childrenOf emptyFPTree id = [] := by
      cases id <;> rfl
    rw [hch] at hpr
    simp at hpr
  · intro c h1 h2
    simp [emptyFPTree] at h2
    omega
  · intro id nb hnb
    have hn : neighbourOf emptyFPTree id = none := by
      cases id <;> rfl
    rw [hn] at hnb
    cases hnb
  · intro x
    unfold HeaderProp
    show occList emptyFPTree x = []
    rfl

theorem BuildInv_empty : BuildInv emptyFPTree [] := by
  refine ⟨WF_empty, ?_, ?_, ?_⟩
  · intro id h1 h2
    simp [emptyFPTree] at h2
    omega
  · intro q
    constructor
    · rintro ⟨id, h1, h2, _⟩
      simp [emptyFPTree] at h2
      omega
    · rintro ⟨_, T, hT, _⟩
      simp at hT
  · intro y
    constructor
    · rintro ⟨id, h1, h2, _⟩
      simp [emptyFPTree] at h2
      omega
    · rintro ⟨T, hT, _⟩
      simp at hT

theorem countP_concat (l : List (List Nat)) (T : List Nat) (p : List Nat → Bool) :
    (l ++ [T]).countP p = l.countP p + (if p T then 1 else 0) := by
  rw [List.countP_append]
  congr 1
  simp [List.countP_cons]

theorem extPrefixCount_nilP (T q : List Nat) (hqne : q ≠ []) :
    extPrefixCount [] T q = if decide (q <+: T) then 1 else 0 := by
  unfold extPrefixCount
  by_cases hpre : q <+: T
  · rw [if_pos ⟨List.nil_prefix, hqne, by rw [List.nil_append]; exact hpre⟩]
    simp [hpre]
  · rw [if_neg (by rintro ⟨_, _, hp⟩; rw [List.nil_append] at hp; exact hpre hp)]
    simp [hpre]

theorem BuildInv_step (t : FPTree) (done : List (List Nat)) (T : List Nat)
    (h : BuildInv t done) : BuildInv (t.addTransaction T) (done ++ [T]) := by
  have hc0 : 0 < t.nodes.length := by
    cases hnil : t.nodes with
    | nil => exact absurd hnil h.wf.nodesNe
    | cons a l => simp [hnil]
  obtain ⟨hwf', hlen', hpaths', hcnt', hpathsq', hitems'⟩ :=
    addTransactionGo_spec T t 0 h.wf hc0
  rw [pathOf_zero] at hcnt' hpathsq'
  show BuildInv (addTransactionGo t 0 T) (done ++ [T])
  refine ⟨hwf', ?_, ?_, ?_⟩
  · intro id h1 h2
    rw [hcnt' id, countP_concat]
    have hqne : pathOf (addTransactionGo t 0 T) id ≠ [] :=
      pathOf_ne_nil _ hwf' id h1 h2
    by_cases hold : id < t.nodes.length
    · rw [h.counts id h1 hold]
      rw [hpaths' id hold] at hqne ⊢
      rw [extPrefixCount_nilP T _ hqne]
    · have hz : countOf t id = 0 := by
        unfold countOf
        rw [List.getElem?_eq_none (by omega)]
        rfl
      have hdone0 : done.countP (fun T' => decide (pathOf (addTransactionGo t 0 T) id <+: T')) = 0 := by
        rw [List.countP_eq_zero]
        intro T' hT' hdec
        rw [decide_eq_true_eq] at hdec
        obtain ⟨id', hi1, hi2, hi3⟩ :=
          (h.paths _).mpr ⟨hqne, T', hT', hdec⟩
        have heq2 : pathOf (addTransactionGo t 0 T) id' = pathOf (addTransactionGo t 0 T) id := by
          rw [hpaths' id' hi2, hi3]
        have := path_inj _ hwf' id' (by omega) id h2 hi1 h1 heq2
        omega
      rw [hz, hdone0, extPrefixCount_nilP T _ hqne]
  · intro q
    rw [hpathsq' q, h.paths q]
    constructor
    · rintro (⟨hne, T', hT', hp⟩ | ⟨_, hne, hp⟩)
      · exact ⟨hne, T', List.mem_append.mpr (Or.inl hT'), hp⟩
      · rw [List.nil_append] at hp
        exact ⟨hne, T, List.mem_append.mpr (Or.inr (List.mem_singleton.mpr rfl)), hp⟩
    · rintro ⟨hne, T', hT', hp⟩
      rcases List.mem_append.mp hT' with hT2 | hT2
      · exact Or.inl ⟨hne, T', hT2, hp⟩
      · rw [List.mem_singleton] at hT2
        subst hT2
        exact Or.inr ⟨List.nil_prefix, hne, by rw [List.nil_append]; exact hp⟩
  · intro y
    rw [hitems' y, h.items y]
    constructor
    · rintro (⟨T', hT', hy⟩ | hy)
      · exact ⟨T', List.mem_append.mpr (Or.inl hT'), hy⟩
      · exact ⟨T, List.mem_append.mpr (Or.inr (by simp)), hy⟩
    · rintro ⟨T', hT', hy⟩
      rcases List.mem_append.mp hT' with h2 | h2
      · exact Or.inl ⟨T', h2, hy⟩
      · rw [List.mem_singleton] at h2
        subst h2
        exact Or.inr hy

theorem buildFold_inv : ∀ (ts : List (List Nat)) (t : FPTree) (done : List (List Nat)),
    BuildInv t done → BuildInv (ts.foldl FPTree.addTransaction t) (done ++ ts) := by
  intro ts
  induction ts with
  | nil =>
    intro t done h
    simpa using h
  | cons T ts ihh =>
    intro t done h
    have hstep := ihh (t.addTransaction T) (done ++ [T]) (BuildInv_step t done T h)
    simpa [List.append_assoc] using hstep

theorem buildFPTree_inv (ts : List (List Nat)) : BuildInv (buildFPTree ts) ts := by
  have h := buildFold_inv ts emptyFPTree [] BuildInv_empty
  simpa [buildFPTree] using h

/-! Summation helpers used to evaluate the support calculator. -/

theorem sum_map_zero {α : Type} (l : List α) (f : α → Nat) (h : ∀ a ∈ l, f a = 0) :
    (l.map f).sum = 0 := by
  induction l with
  | nil => rfl
  | cons a l ih =>
    rw [List.map_cons, List.sum_cons, h a (by simp), ih (fun b hb => h b (by simp [hb]))]

theorem sum_map_add {β : Type} (m : List β) (g h : β → Nat) :
    (m.map (fun b => g b + h b)).sum = (m.map g).sum + (m.map h).sum := by
  induction m with
  | nil => rfl
  | cons b m ih =>
    simp only [List.map_cons, List.sum_cons, ih]
    omega

theorem sum_map_comm {α β : Type} (l : List α) (m : List β) (f : α → β → Nat) :
    (l.map (fun a => (m.map (fun b => f a b)).sum)).sum
      = (m.map (fun b => (l.map (fun a => f a b)).sum)).sum := by
  induction l with
  | nil =>
    rw [List.map_nil, List.sum_nil]
    exact (sum_map_zero m _ (fun b _ => rfl)).symm
  | cons a l ih =>
    rw [List.map_cons, List.sum_cons, ih, ← sum_map_add]
    refine congrArg List.sum (List.map_congr_left (fun b _ => ?_))
    rw [List.map_cons, List.sum_cons]

theorem sum_map_single {α : Type} (l : List α) (f : α → Nat) (a : α)
    (hnd : l.Nodup) (ha : a ∈ l) (h0 : ∀ b ∈ l, b ≠ a → f b = 0) :
    (l.map f).sum = f a := by
  induction l with
  | nil => simp at ha
  | cons c l ih =>
    rw [List.map_cons, List.sum_cons]
    rcases List.mem_cons.mp ha with hca | hal
    · subst hca
      rw [sum_map_zero l f (fun b hb => h0 b (by simp [hb])
        (fun hba => (List.nodup_cons.mp hnd).1 (hba ▸ hb)))]
      omega
    · rw [h0 c (by simp) (fun hca => (List.nodup_cons.mp hnd).1 (hca ▸ hal)),
        ih (List.nodup_cons.mp hnd).2 hal (fun b hb hba => h0 b (by simp [hb]) hba)]
      omega

theorem countP_eq_sum_map {α : Type} (l : List α) (p : α → Bool) :
    l.countP p = (l.map (fun a => if p a then 1 else 0)).sum := by
  induction l with
  | nil => rfl
  | cons a l ih =>
    rw [List.countP_cons, ih, List.map_cons, List.sum_cons]
    by_cases hp : p a <;> simp [hp] <;> omega

theorem sum_key_indicator (l : List (Nat × Nat)) (y : Nat)
    (hnd : (l.map Prod.fst).Nodup) :
    (l.map (fun pr => if pr.1 = y then 1 else 0)).sum
      = if y ∈ l.map Prod.fst then 1 else 0 := by
  induction l with
  | nil => rfl
  | cons pr l ih =>
    simp only [List.map_cons, List.sum_cons]
    have hnd' := hnd
    rw [List.map_cons, List.nodup_cons] at hnd'
    obtain ⟨hpr, hnd2⟩ := hnd'
    by_cases hy : pr.1 = y
    · subst hy
      rw [if_pos rfl, if_pos (by simp)]
      have hz : ∀ b ∈ l, (if b.1 = pr.1 then 1 else 0) = 0 := by
        intro b hb
        rw [if_neg]
        intro hb1
        exact hpr (hb1 ▸ List.mem_map_of_mem Prod.fst hb)
      rw [sum_map_zero l _ hz]
    · rw [if_neg hy, ih hnd2]
      by_cases hmem : y ∈ l.map Prod.fst
      · rw [if_pos hmem, if_pos (List.mem_cons_of_mem _ hmem)]
      · rw [if_neg hmem, if_neg (by
          intro hc
          rcases List.mem_cons.mp hc with hc | hc
          · exact hy hc.symm
          · exact hmem hc)]

/-! List helpers for positions in canonically sorted lists. -/

theorem getD_eq_getElem_of_lt (l : List Nat) (j d : Nat) (h : j < l.length) :
    l.getD j d = l[j] := by
  rw [List.getD_eq_getElem?_getD, List.getElem?_eq_getElem h]
  rfl

theorem mem_take_of_getElem (l : List Nat) (k i : Nat) (hik : i < k)
    (hil : i < l.length) : l[i] ∈ l.take k := by
  have hlt : i < (l.take k).length := by
    rw [List.length_take]
    omega
  have h2 : (l.take k)[i] = l[i] := List.getElem_take l
  rw [← h2]
  exact List.getElem_mem hlt

theorem mem_take_getElem (l : List Nat) (k y : Nat) (h : y ∈ l.take k) :
    ∃ i, i < k ∧ i < l.length ∧ l[i]? = some y := by
  obtain ⟨i, hi, hiy⟩ := List.mem_iff_getElem.mp h
  have hlen : i < k ∧ i < l.length := by
    rw [List.length_take] at hi
    omega
  refine ⟨i, hlen.1, hlen.2, ?_⟩
  have h2 : (l.take k)[i] = l[i] := List.getElem_take l
  rw [List.getElem?_eq_getElem hlen.2, ← hiy, h2]

theorem indexOf_lt_of_rank (ord T : List Nat)
    (hpw : T.Pairwise (fun a b => ord.indexOf a < ord.indexOf b))
    (a b : Nat) (ha : a ∈ T) (hb : b ∈ T) (hab : ord.indexOf a < ord.indexOf b) :
    T.indexOf a < T.indexOf b := by
  have hia : T.indexOf a < T.length := List.indexOf_lt_length.mpr ha
  have hib : T.indexOf b < T.length := List.indexOf_lt_length.mpr hb
  have hga : T[T.indexOf a] = a := List.getElem_indexOf hia
  have hgb : T[T.indexOf b] = b := List.getElem_indexOf hib
  rcases Nat.lt_trichotomy (T.indexOf a) (T.indexOf b) with h | h | h
  · exact h
  · exfalso
    have h1 : T[T.indexOf a]? = some a := by
      rw [List.getElem?_eq_getElem hia, hga]
    have h2 : T[T.indexOf b]? = some b := by
      rw [List.getElem?_eq_getElem hib, hgb]
    rw [h, h2] at h1
    injection h1 with h1
    rw [h1] at hab
    exact Nat.lt_irrefl _ hab
  · exfalso
    have := (List.pairwise_iff_getElem.mp hpw) _ _ hib hia h
    rw [hga, hgb] at this
    omega

theorem rank_nodup (ord T : List Nat)
    (hpw : T.Pairwise (fun a b => ord.indexOf a < ord.indexOf b)) : T.Nodup :=
  hpw.imp (fun hlt heq => by rw [heq] at hlt; exact Nat.lt_irrefl _ hlt)

theorem prefix_getLast_eq_take (T q : List Nat) (hnd : T.Nodup) (x : Nat)
    (hpre : q <+: T) (hlast : q.getLast? = some x) :
    q = T.take (T.indexOf x + 1) := by
  have hqne : q ≠ [] := by
    intro h
    rw [h] at hlast
    simp at hlast
  have hq1 : 1 ≤ q.length := by
    cases hq : q with
    | nil => exact absurd hq hqne
    | cons a l => simp [hq]
  have hqtake : q = T.take q.length := List.prefix_iff_eq_take.mp hpre
  have hqlen : q.length ≤ T.length := hpre.length_le
  have h1 : q[q.length - 1]? = some x := by
    rw [← List.getLast?_eq_getElem?]
    exact hlast
  obtain ⟨n, hn⟩ : ∃ n, q.length = n := ⟨_, rfl⟩
  rw [hn] at hqtake hqlen h1 hq1
  rw [hqtake, List.getElem?_take] at h1
  rw [if_pos (show n - 1 < n by omega)] at h1
  obtain ⟨hb, hTm⟩ := List.getElem?_eq_some.mp h1
  have hxT : x ∈ T := hTm ▸ List.getElem_mem hb
  have hidx : T.indexOf x < T.length := List.indexOf_lt_length.mpr hxT
  have hnd2 : T.Pairwise (fun a b => a ≠ b) := hnd
  have hii : T.indexOf x = n - 1 := by
    rcases Nat.lt_trichotomy (T.indexOf x) (n - 1) with h | h | h
    · exact absurd ((List.getElem_indexOf hidx).trans hTm.symm)
        (List.pairwise_iff_getElem.mp hnd2 _ _ hidx hb h)
    · exact h
    · exact absurd (hTm.trans (List.getElem_indexOf hidx).symm)
        (List.pairwise_iff_getElem.mp hnd2 _ _ hb hidx h)
  rw [hqtake]
  congr 1
  omega

/-! Consequences of the construction invariant used by the support proofs. -/

theorem occ_pos (t : FPTree) (hwf : WF t) (x id : Nat) (h : id ∈ occList t x) :
    1 ≤ id ∧ id < t.nodes.length ∧ itemOf t id = some x := by
  obtain ⟨hlt, hit⟩ := (mem_occList t x id).mp h
  refine ⟨?_, hlt, hit⟩
  rcases Nat.eq_zero_or_pos id with h0 | h1
  · subst h0
    rw [hwf.rootItem] at hit
    cases hit
  · exact h1

theorem pathOf_rank_pairwise (t : FPTree) (ts : List (List Nat)) (ord : List Nat)
    (hinv : BuildInv t ts) (hts : ∀ T ∈ ts, Canonical ord T)
    (id : Nat) (h1 : 1 ≤ id) (h2 : id < t.nodes.length) :
    (pathOf t id).Pairwise (fun a b => ord.indexOf a < ord.indexOf b) := by
  obtain ⟨hne, T, hT, hpre⟩ := (hinv.paths (pathOf t id)).mp ⟨id, h1, h2, rfl⟩
  exact (hts T hT).1.sublist hpre.sublist

theorem header_lookup_none_iff (t : FPTree) (ts : List (List Nat))
    (hinv : BuildInv t ts) (x : Nat) :
    t.header.lookup x = none ↔ ¬∃ T ∈ ts, x ∈ T := by
  constructor
  · intro hlk hex
    obtain ⟨id, hi1, hi2, hi3⟩ := (hinv.items x).mpr hex
    have hh := hinv.wf.headerOcc x
    unfold HeaderProp at hh
    rw [hlk] at hh
    have hidm : id ∈ occList t x := (mem_occList t x id).mpr ⟨hi2, hi3⟩
    rw [hh] at hidm
    simp at hidm
  · intro hnex
    cases hlk : t.header.lookup x with
    | none => rfl
    | some ht =>
      have hh := hinv.wf.headerOcc x
      unfold HeaderProp at hh
      rw [hlk] at hh
      obtain ⟨hne, _, _, _, _⟩ := hh
      cases hocc : occList t x with
      | nil => exact absurd hocc hne
      | cons a rest =>
        have ha : a ∈ occList t x := by rw [hocc]; simp
        obtain ⟨ha1, ha2, ha3⟩ := occ_pos t hinv.wf x a ha
        exact absurd ((hinv.items x).mp ⟨a, ha1, ha2, ha3⟩) hnex

/-! Semantics of the ancestor walk of `checkPath`. -/

theorem ancestorSearch_succ (t : FPTree) (ord : List Nat) (target fuel y : Nat) :
    ancestorSearch t ord target (fuel+1) y =
      (if y = 0 then false
       else match t.nodes[y]? with
       | none => false
       | some nd =>
         if nd.item = some target then true
         else if ord.indexOf (nd.item.getD 0) < ord.indexOf target then false
         else ancestorSearch t ord target fuel (nd.parent.getD 0)) := rfl

theorem checkPath_succ (X : List Nat) (j xId : Nat) (t : FPTree) (ord : List Nat) :
    checkPath X (j+1) xId t ord =
      (if ancestorSearch t ord ((X[j]?).getD 0) t.nodes.length
          (((t.nodes[xId]?).bind FPNode.parent).getD 0) then true
       else checkPath X j xId t ord) := rfl

theorem if_then_true_eq_or (b c : Bool) : (if b then true else c) = (b || c) := by
  cases b <;> rfl

theorem ancestorSearch_iff (t : FPTree) (hwf : WF t) (ord : List Nat) (target : Nat) :
    ∀ fuel y, y < t.nodes.length → y < fuel →
      (pathOf t y).Pairwise (fun a b => ord.indexOf a < ord.indexOf b) →
      (ancestorSearch t ord target fuel y = true ↔ target ∈ pathOf t y) := by
  intro fuel
  induction fuel with
  | zero =>
    intro y _ hy _
    omega
  | succ fuel ih =>
    intro y hylen hyf hpw
    by_cases hy0 : y = 0
    · subst hy0
      rw [pathOf_zero, ancestorSearch_succ, if_pos rfl]
      simp
    · obtain ⟨p, x, hp, hplt, hx, hpath⟩ := pathOf_spec t hwf y (by omega) hylen
      obtain ⟨nd, hnd⟩ : ∃ nd, t.nodes[y]? = some nd := by
        rw [List.getElem?_eq_getElem hylen]
        exact ⟨_, rfl⟩
      have hndi : nd.item = some x := by
        rw [itemOf, hnd, Option.some_bind] at hx
        exact hx
      have hndp : nd.parent = some p := by
        rw [parentOf, hnd, Option.some_bind] at hp
        exact hp
      rw [ancestorSearch_succ, if_neg hy0, hnd]
      dsimp only
      rw [hndi, hndp, Option.getD_some, Option.getD_some, hpath]
      have hpwa := hpath ▸ hpw
      by_cases hxt : x = target
      · subst hxt
        rw [if_pos rfl]
        simp
      · rw [if_neg (fun hc => hxt (Option.some.inj hc))]
        by_cases hrk : ord.indexOf x < ord.indexOf target
        · rw [if_pos hrk]
          simp only [Bool.false_eq_true, false_iff]
          intro hc
          rcases List.mem_append.mp hc with hc | hc
          · have := (List.pairwise_append.mp hpwa).2.2 target hc x (by simp)
            omega
          · have : target = x := by simpa using hc
            exact hxt this.symm
        · rw [if_neg hrk,
            ih p (by omega) (by omega) (List.pairwise_append.mp hpwa).1,
            List.mem_append]
          constructor
          · exact Or.inl
          · rintro (hc | hc)
            · exact hc
            · have : target = x := by simpa using hc
              exact absurd this.symm hxt

theorem checkPath_iff (t : FPTree) (hwf : WF t) (ord X : List Nat) (xId : Nat)
    (h1 : 1 ≤ xId) (h2 : xId < t.nodes.length)
    (hpw : (pathOf t xId).Pairwise (fun a b => ord.indexOf a < ord.indexOf b)) :
    ∀ j, j ≤ X.length →
      (checkPath X j xId t ord = true ↔
        ∃ y ∈ X.take j, y ∈ (pathOf t xId).dropLast) := by
  intro j
  induction j with
  | zero =>
    intro _
    show (false = true ↔ _)
    simp
  | succ j ihj =>
    intro hjX
    obtain ⟨p, x, hp, hplt, hx, hpath⟩ := pathOf_spec t hwf xId h1 h2
    have hdrop : (pathOf t xId).dropLast = pathOf t p := by
      rw [hpath, List.dropLast_concat]
    obtain ⟨nd, hnd⟩ : ∃ nd, t.nodes[xId]? = some nd := by
      rw [List.getElem?_eq_getElem h2]
      exact ⟨_, rfl⟩
    have hndp : nd.parent = some p := by
      rw [parentOf, hnd, Option.some_bind] at hp
      exact hp
    have hjlt : j < X.length := by omega
    rw [checkPath_succ, hnd, Option.some_bind, hndp, Option.getD_some,
      List.getElem?_eq_getElem hjlt, Option.getD_some, if_then_true_eq_or,
      Bool.or_eq_true,
      ancestorSearch_iff t hwf ord _ t.nodes.length p (by omega) (by omega)
        ((List.pairwise_append.mp (hpath ▸ hpw)).1),
      ihj (by omega), hdrop, List.take_succ, List.getElem?_eq_getElem hjlt]
    simp only [Option.toList_some]
    constructor
    · rintro (hc | ⟨y, hy, hyd⟩)
      · exact ⟨X[j], List.mem_append.mpr (Or.inr (by simp)), hc⟩
      · exact ⟨y, List.mem_append.mpr (Or.inl hy), hyd⟩
    · rintro ⟨y, hy, hyd⟩
      rcases List.mem_append.mp hy with hy | hy
      · exact Or.inr ⟨y, hy, hyd⟩
      · have hyx : y = X[j] := by simpa using hy
        subst hyx
        exact Or.inl hyd

/-! Evaluation of the support loops over the occurrence chains. -/

theorem chainSupportGo_eq_walk (t : FPTree) (ord X : List Nat) (k : Nat) :
    ∀ fuel o, chainSupportGo t ord X k fuel o =
      ((chainWalk t fuel o).map (fun id =>
        if checkPath X k id t ord then 0 else countOf t id)).sum := by
  intro fuel
  induction fuel with
  | zero =>
    intro o
    cases o <;> rfl
  | succ fuel ih =>
    intro o
    cases o with
    | none => rfl
    | some y =>
      show (if checkPath X k y t ord then 0 else countOf t y)
          + chainSupportGo t ord X k fuel (neighbourOf t y) = _
      rw [ih]
      show _ = ((y :: chainWalk t fuel (neighbourOf t y)).map _).sum
      rw [List.map_cons, List.sum_cons]

theorem chainWalk_head (t : FPTree) (hwf : WF t) (x : Nat) (ht : Nat × Nat)
    (hlk : t.header.lookup x = some ht) :
    chainWalk t t.nodes.length (some ht.1) = occList t x := by
  have h := nodesOf_eq_occList t hwf x
  unfold nodesOf at h
  rw [hlk] at h
  exact h

theorem suppLoop_eval (t : FPTree) (ord X : List Nat) (hwf : WF t)
    (hlk : ∀ x ∈ X, (t.header.lookup x).isSome) :
    ∀ k, k ≤ X.length →
      suppLoop t ord X k = some (((List.range k).map (fun j =>
        ((occList t (X.getD j 0)).map (fun id =>
          if checkPath X j id t ord then 0 else countOf t id)).sum)).sum) := by
  intro k
  induction k with
  | zero =>
    intro _
    rfl
  | succ k ih =>
    intro hk1
    have hklt : k < X.length := by omega
    have hkx : X[k]? = some (X[k]) := List.getElem?_eq_getElem hklt
    have hxm : X[k] ∈ X := List.getElem_mem hklt
    obtain ⟨ht, hht⟩ := Option.isSome_iff_exists.mp (hlk _ hxm)
    show (match suppLoop t ord X k, X[k]? with
      | none, _ => none
      | _, none => none
      | some s, some it =>
        match t.header.lookup it with
        | none => none
        | some ht =>
            some (s + chainSupportGo t ord X k t.nodes.length (some ht.1))) = _
    rw [ih (by omega), hkx]
    dsimp only
    rw [hht]
    dsimp only
    congr 1
    rw [List.range_succ, List.map_append, List.sum_append]
    congr 1
    rw [List.map_singleton, List.sum_singleton,
      chainSupportGo_eq_walk, chainWalk_head t hwf (X[k]) ht hht,
      getD_eq_getElem_of_lt X k 0 hklt]

theorem suppLoop_none (t : FPTree) (ord X : List Nat) (kStar : Nat)
    (hk : kStar < X.length)
    (hmiss : t.header.lookup (X.getD kStar 0) = none) :
    ∀ k, kStar < k → suppLoop t ord X k = none := by
  intro k
  induction k with
  | zero =>
    intro h
    omega
  | succ k ih =>
    intro hkk
    show (match suppLoop t ord X k, X[k]? with
      | none, _ => none
      | _, none => none
      | some s, some it =>
        match t.header.lookup it with
        | none => none
        | some ht =>
            some (s + chainSupportGo t ord X k t.nodes.length (some ht.1))) = none
    by_cases hke : kStar = k
    · subst hke
      rw [getD_eq_getElem_of_lt X kStar 0 hk] at hmiss
      rw [List.getElem?_eq_getElem hk]
      cases hsl : suppLoop t ord X kStar with
      | none => rfl
      | some s =>
        dsimp only
        rw [hmiss]
    · rw [ih (by omega)]
      cases X[k]? <;> rfl

/-! The per-transaction count: each transaction containing an itemset item is
counted exactly once, by the node of its earliest itemset item. -/

theorem perT_count (t : FPTree) (ts : List (List Nat)) (ord X : List Nat)
    (hinv : BuildInv t ts)
    (hts : ∀ T ∈ ts, Canonical ord T)
    (hX : Canonical ord X)
    (T : List Nat) (hT : T ∈ ts) :
    ((List.range X.length).map (fun j =>
      ((occList t (X.getD j 0)).map (fun id =>
        if checkPath X j id t ord then 0
        else if decide (pathOf t id <+: T) then 1 else 0)).sum)).sum
    = if X.any (fun x => decide (x ∈ T)) then 1 else 0 := by
  have hTpw := (hts T hT).1
  have hTnd : T.Nodup := rank_nodup ord T hTpw
  have hXpw := hX.1
  have hgood : ∀ j, j < X.length → ∀ id ∈ occList t (X.getD j 0),
      (if checkPath X j id t ord then (0:Nat)
       else if decide (pathOf t id <+: T) then 1 else 0) ≠ 0 →
      (checkPath X j id t ord = false ∧ pathOf t id <+: T ∧
       pathOf t id = T.take (T.indexOf (X.getD j 0) + 1) ∧ X.getD j 0 ∈ T) := by
    intro j hj id hid hne
    cases hcp : checkPath X j id t ord with
    | true =>
      rw [if_pos hcp] at hne
      exact absurd rfl hne
    | false =>
      rw [if_neg (by rw [hcp]; exact Bool.false_ne_true)] at hne
      by_cases hpre : pathOf t id <+: T
      · obtain ⟨hid1, hid2, hid3⟩ := occ_pos t hinv.wf _ id hid
        have hlast := pathOf_last t hinv.wf id hid1 hid2 _ hid3
        have heq := prefix_getLast_eq_take T (pathOf t id) hTnd _ hpre hlast
        have hmemT : X.getD j 0 ∈ T :=
          hpre.sublist.subset (getLast?_mem_self _ _ hlast)
        exact ⟨rfl, hpre, heq, hmemT⟩
      · rw [if_neg (by simpa using hpre)] at hne
        exact absurd rfl hne
  by_cases hex : ∃ x ∈ X, x ∈ T
  · rw [if_pos (by simp only [List.any_eq_true, decide_eq_true_eq]; exact hex)]
    have hPex : ∃ k, k < X.length ∧ X.getD k 0 ∈ T := by
      obtain ⟨x, hxX, hxT⟩ := hex
      obtain ⟨i, hi, hix⟩ := List.mem_iff_getElem.mp hxX
      exact ⟨i, hi, by rw [getD_eq_getElem_of_lt X i 0 hi, hix]; exact hxT⟩
    have hk0lt : Nat.find hPex < X.length := (Nat.find_spec hPex).1
    have hk0T : X.getD (Nat.find hPex) 0 ∈ T := (Nat.find_spec hPex).2
    have hk0min : ∀ m, m < Nat.find hPex → m < X.length → X.getD m 0 ∉ T := by
      intro m hm hmlt hmem
      exact Nat.find_min hPex hm ⟨hmlt, hmem⟩
    generalize hgen : Nat.find hPex = k0 at hk0lt hk0T hk0min
    have hx0T : X.getD k0 0 ∈ T := hk0T
    have hidxlt : T.indexOf (X.getD k0 0) < T.length := List.indexOf_lt_length.mpr hx0T
    have hp0pre : T.take (T.indexOf (X.getD k0 0) + 1) <+: T :=
      ⟨T.drop (T.indexOf (X.getD k0 0) + 1), List.take_append_drop _ _⟩
    have hp0last : (T.take (T.indexOf (X.getD k0 0) + 1)).getLast?
        = some (X.getD k0 0) := by
      rw [List.take_succ, List.getElem?_eq_getElem hidxlt, Option.toList_some,
        List.getLast?_concat, List.getElem_indexOf hidxlt]
    have hp0dl : (T.take (T.indexOf (X.getD k0 0) + 1)).dropLast
        = T.take (T.indexOf (X.getD k0 0)) := by
      rw [List.take_succ, List.getElem?_eq_getElem hidxlt, Option.toList_some,
        List.dropLast_concat]
    have hp0ne : T.take (T.indexOf (X.getD k0 0) + 1) ≠ [] := by
      intro hc
      rw [hc] at hp0last
      simp at hp0last
    obtain ⟨id0, hid01, hid02, hid03⟩ := (hinv.paths _).mpr ⟨hp0ne, T, hT, hp0pre⟩
    have hitem0 : itemOf t id0 = some (X.getD k0 0) := by
      obtain ⟨y, hy⟩ := hinv.wf.itemSome id0 hid01 hid02
      have hly := pathOf_last t hinv.wf id0 hid01 hid02 y hy
      rw [hid03, hp0last] at hly
      injection hly with hly
      rw [hy, hly]
    have hid0occ : id0 ∈ occList t (X.getD k0 0) :=
      (mem_occList _ _ _).mpr ⟨hid02, hitem0⟩
    have houter : ∀ j ∈ List.range X.length, j ≠ k0 →
        ((occList t (X.getD j 0)).map (fun id =>
          if checkPath X j id t ord then 0
          else if decide (pathOf t id <+: T) then 1 else 0)).sum = 0 := by
      intro j hjr hjne
      have hj : j < X.length := List.mem_range.mp hjr
      refine sum_map_zero _ _ (fun id hid => ?_)
      by_contra hne0
      obtain ⟨hcp, hpre, heq, hjT⟩ := hgood j hj id hid hne0
      rcases Nat.lt_or_ge j k0 with hlt | hge
      · exact hk0min j hlt hj hjT
      · have hgt : k0 < j := by omega
        obtain ⟨hid1, hid2, hid3⟩ := occ_pos t hinv.wf _ id hid
        have hpwid := pathOf_rank_pairwise t ts ord hinv hts id hid1 hid2
        have hidxj : T.indexOf (X.getD j 0) < T.length := List.indexOf_lt_length.mpr hjT
        have hwit : ∃ y ∈ X.take j, y ∈ (pathOf t id).dropLast := by
          refine ⟨X.getD k0 0, ?_, ?_⟩
          · rw [getD_eq_getElem_of_lt X k0 0 hk0lt]
            exact mem_take_of_getElem X j k0 hgt hk0lt
          · rw [heq]
            have hdl : (T.take (T.indexOf (X.getD j 0) + 1)).dropLast
                = T.take (T.indexOf (X.getD j 0)) := by
              rw [List.take_succ, List.getElem?_eq_getElem hidxj, Option.toList_some,
                List.dropLast_concat]
            rw [hdl]
            have hrk : ord.indexOf (X.getD k0 0) < ord.indexOf (X.getD j 0) := by
              have hpg := List.pairwise_iff_getElem.mp hXpw k0 j hk0lt hj hgt
              rw [getD_eq_getElem_of_lt X k0 0 hk0lt, getD_eq_getElem_of_lt X j 0 hj]
              exact hpg
            have hio := indexOf_lt_of_rank ord T hTpw _ _ hx0T hjT hrk
            have hmt := mem_take_of_getElem T (T.indexOf (X.getD j 0))
              (T.indexOf (X.getD k0 0)) hio hidxlt
            rw [List.getElem_indexOf hidxlt] at hmt
            exact hmt
        have hcpt := (checkPath_iff t hinv.wf ord X id hid1 hid2 hpwid j (by omega)).mpr hwit
        rw [hcp] at hcpt
        cases hcpt
    rw [sum_map_single (List.range X.length) _ k0 (List.nodup_range _)
      (List.mem_range.mpr hk0lt) houter]
    have hinner0 : ∀ id ∈ occList t (X.getD k0 0), id ≠ id0 →
        (if checkPath X k0 id t ord then (0:Nat)
         else if decide (pathOf t id <+: T) then 1 else 0) = 0 := by
      intro id hid hne
      by_contra hne0
      obtain ⟨hcp, hpre, heq, hjT⟩ := hgood k0 hk0lt id hid hne0
      obtain ⟨hid1, hid2, hid3⟩ := occ_pos t hinv.wf _ id hid
      exact hne (path_inj t hinv.wf id hid2 id0 hid02 hid1 hid01 (by rw [heq, ← hid03]))
    rw [sum_map_single _ _ id0 (occList_nodup t _) hid0occ hinner0]
    have hcp0 : checkPath X k0 id0 t ord = false := by
      cases hcp : checkPath X k0 id0 t ord with
      | false => rfl
      | true =>
        exfalso
        have hpwid := pathOf_rank_pairwise t ts ord hinv hts id0 hid01 hid02
        obtain ⟨y, hy, hyd⟩ :=
          (checkPath_iff t hinv.wf ord X id0 hid01 hid02 hpwid k0 (by omega)).mp hcp
        obtain ⟨i, hik, hil, hiy⟩ := mem_take_getElem X k0 y hy
        have hyT : y ∈ T := by
          rw [hid03, hp0dl] at hyd
          exact List.mem_of_mem_take hyd
        have hgy : X.getD i 0 = y := by
          rw [List.getD_eq_getElem?_getD, hiy, Option.getD_some]
        exact hk0min i hik hil (by rw [hgy]; exact hyT)
    rw [if_neg (by rw [hcp0]; exact Bool.false_ne_true),
      if_pos (by rw [hid03]; exact decide_eq_true hp0pre)]
  · rw [if_neg (by
      intro hc
      rw [List.any_eq_true] at hc
      obtain ⟨x, hxX, hxT⟩ := hc
      rw [decide_eq_true_eq] at hxT
      exact hex ⟨x, hxX, hxT⟩)]
    refine sum_map_zero _ _ (fun j hjr => ?_)
    have hj : j < X.length := List.mem_range.mp hjr
    refine sum_map_zero _ _ (fun id hid => ?_)
    by_contra hne0
    obtain ⟨hcp, hpre, heq, hjT⟩ := hgood j hj id hid hne0
    refine hex ⟨X.getD j 0, ?_, hjT⟩
    rw [getD_eq_getElem_of_lt X j 0 hj]
    exact List.getElem_mem hj

/-- The closed form of the prefix-path support calculator on a tree built from
canonically sorted transactions: the disjunctive (OR-semantics) support. -/
theorem support_formula (t : FPTree) (ts : List (List Nat)) (ord X : List Nat)
    (hinv : BuildInv t ts)
    (hts : ∀ T ∈ ts, Canonical ord T)
    (hX : Canonical ord X)
    (hocc : ∀ x ∈ X, ∃ T ∈ ts, x ∈ T) :
    findSupportByPrefixPath X t ord
      = some (ts.countP (fun T => X.any (fun x => decide (x ∈ T)))) := by
  have hlk : ∀ x ∈ X, (t.header.lookup x).isSome := by
    intro x hx
    cases hl : t.header.lookup x with
    | some ht => rfl
    | none => exact absurd (hocc x hx) ((header_lookup_none_iff t ts hinv x).mp hl)
  rw [findSupportByPrefixPath, suppLoop_eval t ord X hinv.wf hlk X.length le_rfl]
  congr 1
  have hstep1 : ∀ j ∈ List.range X.length,
      ((occList t (X.getD j 0)).map (fun id =>
        if checkPath X j id t ord then 0 else countOf t id)).sum
      = ((occList t (X.getD j 0)).map (fun id =>
          (ts.map (fun T =>
            if checkPath X j id t ord then 0
            else if decide (pathOf t id <+: T) then 1 else 0)).sum)).sum := by
    intro j hj
    refine congrArg List.sum (List.map_congr_left (fun id hid => ?_))
    obtain ⟨hid1, hid2, hid3⟩ := occ_pos t hinv.wf _ id hid
    cases hcp : checkPath X j id t ord with
    | true =>
      rw [if_pos rfl]
      exact (sum_map_zero _ _ (fun T hT => by rw [if_pos rfl])).symm
    | false =>
      rw [if_neg Bool.false_ne_true, hinv.counts id hid1 hid2, countP_eq_sum_map]
      refine congrArg List.sum (List.map_congr_left (fun T hT => ?_))
      rw [if_neg Bool.false_ne_true]
  calc ((List.range X.length).map (fun j =>
        ((occList t (X.getD j 0)).map (fun id =>
          if checkPath X j id t ord then 0 else countOf t id)).sum)).sum
      = ((List.range X.length).map (fun j =>
          ((occList t (X.getD j 0)).map (fun id =>
            (ts.map (fun T =>
              if checkPath X j id t ord then 0
              else if decide (pathOf t id <+: T) then 1 else 0)).sum)).sum)).sum :=
        congrArg List.sum (List.map_congr_left hstep1)
    _ = ((List.range X.length).map (fun j =>
          (ts.map (fun T =>
            ((occList t (X.getD j 0)).map (fun id =>
              if checkPath X j id t ord then 0
              else if decide (pathOf t id <+: T) then 1 else 0)).sum)).sum)).sum :=
        congrArg List.sum (List.map_congr_left (fun j _ => sum_map_comm _ _ _))
    _ = (ts.map (fun T =>
          ((List.range X.length).map (fun j =>
            ((occList t (X.getD j 0)).map (fun id =>
              if checkPath X j id t ord then 0
              else if decide (pathOf t id <+: T) then 1 else 0)).sum)).sum)).sum :=
        sum_map_comm _ _ _
    _ = (ts.map (fun T => if X.any (fun x => decide (x ∈ T)) then 1 else 0)).sum :=
        congrArg List.sum (List.map_congr_left
          (fun T hT => perT_count t ts ord X hinv hts hX T hT))
    _ = ts.countP (fun T => X.any (fun x => decide (x ∈ T))) :=
        (countP_eq_sum_map ts _).symm

/-! Children key lists stay duplicate-free during construction (the embedding
of the source's per-node child dictionaries). -/

theorem incCount_children (t : FPTree) (cid j : Nat) :
    childrenOf { t with nodes := modifyAt t.nodes cid FPNode.incrementCount } j
      = childrenOf t j := by
  unfold childrenOf
  dsimp only
  rw [getElem?_modifyAt]
  by_cases hj : j = cid
  · rw [if_pos hj]
    cases t.nodes[j]? <;> rfl
  · rw [if_neg hj]

theorem updateHeader_children (t : FPTree) (x n j : Nat) :
    childrenOf (t.updateHeader x n) j = childrenOf t j := by
  unfold FPTree.updateHeader
  cases hlk : t.header.lookup x with
  | none => rfl
  | some ht =>
    dsimp only
    unfold childrenOf
    dsimp only
    rw [getElem?_modifyAt]
    by_cases hj : j = ht.2
    · rw [if_pos hj]
      cases t.nodes[j]? <;> rfl
    · rw [if_neg hj]

theorem addTransactionGo_childkeys : ∀ (rest : List Nat) (t : FPTree) (curr : Nat),
    WF t → curr < t.nodes.length →
    (∀ id, ((childrenOf t id).map Prod.fst).Nodup) →
    ∀ id, ((childrenOf (addTransactionGo t curr rest) id).map Prod.fst).Nodup := by
  intro rest
  induction rest with
  | nil =>
    intro t curr hwf hc hck id
    exact hck id
  | cons x rest ih =>
    intro t curr hwf hc hck
    obtain ⟨ndc, hndc⟩ : ∃ ndc, t.nodes[curr]? = some ndc := by
      rw [List.getElem?_eq_getElem hc]
      exact ⟨_, rfl⟩
    have hchnd : childrenOf t curr = ndc.children := by
      rw [childrenOf, hndc]
      rfl
    simp only [addTransactionGo]
    cases hsc : (t.nodes[curr]?).bind (fun nd => nd.searchChildren x) with
    | some cid =>
      dsimp only
      have hcid : (childrenOf t curr).lookup x = some cid := by
        rw [hndc] at hsc
        simp only [Option.some_bind] at hsc
        rw [hchnd]
        exact hsc
      have hmem := lookup_isSome_mem _ _ _ hcid
      obtain ⟨hcid1, hcidN, hcidI, hcidP⟩ := hwf.childMem curr hc (x, cid) hmem
      obtain ⟨hwf1, hlen1, _, _, _, hch1, _, _, _⟩ :=
        incCount_step t _ cid hwf hcid1 hcidN rfl
      refine ih _ cid hwf1 (by omega) (fun id => ?_)
      rw [hch1 id]
      exact hck id
    | none =>
      dsimp only
      have hnochild : (childrenOf t curr).lookup x = none := by
        rw [hndc] at hsc
        simp only [Option.some_bind] at hsc
        rw [hchnd]
        exact hsc
      have hn1 : 1 ≤ t.nodes.length := by
        cases hnil : t.nodes with
        | nil => exact absurd hnil hwf.nodesNe
        | cons b l => simp [hnil]
      obtain ⟨hwf3, hlen3, hpaths3, hpathn3, hcnt3, hitem3⟩ :=
        newNode_step t _ _ curr x hwf hc hnochild rfl rfl
      obtain ⟨hlen2, hitem2, hpar2, hnb2, hcnt2, hch2, hhd2⟩ :=
        appendChild_step t _ curr x hc hnochild rfl
      have hck3 : ∀ id, ((childrenOf (FPTree.updateHeader (FPTree.addChild
          { t with nodes := t.nodes ++
              [{ item := some x, count := some 1, parent := some curr,
                 children := [], neighbour := none }] }
          curr x t.nodes.length) x t.nodes.length) id).map Prod.fst).Nodup := by
        intro id
        rw [updateHeader_children, hch2 id]
        by_cases hid : id = curr
        · rw [if_pos hid]
          rw [List.map_append]
          rw [List.nodup_append]
          refine ⟨hck curr, by simp, ?_⟩
          intro a ha hb
          have hax : a = x := by simpa using hb
          subst hax
          exact (lookup_eq_none_iff (childrenOf t curr) a).mp hnochild ha
        · rw [if_neg hid]
          by_cases hid2 : id = t.nodes.length
          · rw [if_pos hid2]
            simp
          · rw [if_neg hid2]
            exact hck id
      generalize hT3 : FPTree.updateHeader (FPTree.addChild
          { t with nodes := t.nodes ++
              [{ item := some x, count := some 1, parent := some curr,
                 children := [], neighbour := none }] }
          curr x t.nodes.length) x t.nodes.length = T3
        at hwf3 hlen3 hck3 ⊢
      exact ih T3 t.nodes.length hwf3 (by omega) hck3

theorem buildFold_childkeys : ∀ (ts : List (List Nat)) (t : FPTree),
    WF t → (∀ id, ((childrenOf t id).map Prod.fst).Nodup) →
    WF (ts.foldl FPTree.addTransaction t) ∧
      ∀ id, ((childrenOf (ts.foldl FPTree.addTransaction t) id).map Prod.fst).Nodup := by
  intro ts
  induction ts with
  | nil =>
    intro t hwf hck
    exact ⟨hwf, hck⟩
  | cons T ts ihh =>
    intro t hwf hck
    have h0 : 0 < t.nodes.length := by
      cases hnil : t.nodes with
      | nil => exact absurd hnil hwf.nodesNe
      | cons b l => simp [hnil]
    have hwf1 : WF (t.addTransaction T) := (addTransactionGo_spec T t 0 hwf h0).1
    have hck1 : ∀ id, ((childrenOf (t.addTransaction T) id).map Prod.fst).Nodup :=
      addTransactionGo_childkeys T t 0 hwf h0 hck
    exact ihh (t.addTransaction T) hwf1 hck1

theorem buildFPTree_childkeys (ts : List (List Nat)) :
    ∀ id, ((childrenOf (buildFPTree ts) id).map Prod.fst).Nodup := by
  have hcke : ∀ id, ((childrenOf emptyFPTree id).map Prod.fst).Nodup := by
    intro id
    have hch : childrenOf emptyFPTree id = [] := by
      cases id <;> rfl
    rw [hch]
    simp
  exact (buildFold_childkeys ts emptyFPTree WF_empty hcke).2

/-! Helper lemmas on the lattice enumerator. -/

theorem erase_of_nodup_getElem (L : List Nat) :
    ∀ (i : Nat) (x : Nat), L.Nodup → L[i]? = some x →
      L.erase x = L.take i ++ L.drop (i + 1) := by
  induction L with
  | nil => intro i x _ h; simp at h
  | cons a L ih =>
    intro i x hnd h
    cases i with
    | zero =>
      rw [List.getElem?_cons_zero] at h
      injection h with h
      subst h
      simp [List.erase_cons_head]
    | succ i =>
      rw [List.getElem?_cons_succ] at h
      have hx : x ∈ L := by
        rcases List.getElem?_eq_some.mp h with ⟨hlt, hEq⟩
        exact hEq ▸ List.getElem_mem hlt
      have hax : ¬(a == x) = true := by
        simp only [beq_iff_eq]
        intro he
        exact (List.nodup_cons.mp hnd).1 (he ▸ hx)
      rw [List.erase_cons_tail hax, ih i x (List.nodup_cons.mp hnd).2 h]
      simp

theorem genLoop_record_sizes (minSupp : Nat) (fpt : FPTree) (ord : List Nat) :
    ∀ (cnt : Nat) (depth : Int) (L : List Nat) (res : List (List Nat × Nat)),
      depth = (L.length : Int) →
      genLoop 0 minSupp fpt ord cnt depth L = some res →
      ∀ pr ∈ res, 1 ≤ pr.1.length ∧ pr.1.length + 1 ≤ L.length := by
  intro cnt
  induction cnt with
  | zero =>
    intro depth L res _ h
    injection h with h
    subst h
    intro pr hpr
    simp at hpr
  | succ cnt ih =>
    intro depth L res hdepth h
    simp only [genLoop] at h
    split at h
    · injection h with h
      subst h
      intro pr hpr
      simp at hpr
    · rename_i hguard
      have hidx : ((0 : Int) + (cnt : Int)).toNat = cnt := by omega
      rw [hidx] at h
      cases heq : L[cnt]? with
      | none => rw [heq] at h; cases h
      | some x =>
        rw [heq] at h
        dsimp only at h
        have hmem : x ∈ L := by
          rcases List.getElem?_eq_some.mp heq with ⟨hlt, hEq⟩
          exact hEq ▸ List.getElem_mem hlt
        have hcntlt : cnt < L.length := (List.getElem?_eq_some.mp heq).1
        have hlen : (L.erase x).length = L.length - 1 := List.length_erase_of_mem hmem
        have hlen2 : 2 ≤ L.length := by omega
        cases hsup : findSupportByPrefixPath (L.erase x) fpt ord with
        | none => rw [hsup] at h; cases h
        | some val =>
          rw [hsup] at h
          dsimp only at h
          split at h
          · cases hrec : genLoop 0 minSupp fpt ord cnt (depth - 1) (L.erase x) with
            | none => rw [hrec] at h; cases h
            | some rec1 =>
              rw [hrec] at h
              dsimp only at h
              cases hrest : genLoop 0 minSupp fpt ord cnt depth L with
              | none => rw [hrest] at h; cases h
              | some rest =>
                rw [hrest] at h
                dsimp only at h
                injection h with h
                subst h
                intro pr hpr
                rcases List.mem_cons.mp hpr with rfl | hpr
                · constructor
                  · show 1 ≤ (L.erase x).length
                    omega
                  · show (L.erase x).length + 1 ≤ L.length
                    omega
                · rcases List.mem_append.mp hpr with hpr | hpr
                  · have := ih (depth - 1) (L.erase x) rec1 (by omega) hrec pr hpr
                    omega
                  · exact ih depth L rest hdepth hrest pr hpr
          · exact ih depth L res hdepth h

theorem genLoop_records_nodup (minSupp : Nat) (fpt : FPTree) (ord : List Nat) :
    ∀ (cnt : Nat) (depth : Int) (L : List Nat) (res : List (List Nat × Nat)),
      L.Nodup →
      genLoop 0 minSupp fpt ord cnt depth L = some res →
      (∀ pr ∈ res, pr.1.Sublist L ∧ pr.1.length < L.length ∧ L.drop cnt <:+ pr.1) ∧
      (res.map Prod.fst).Nodup := by
  intro cnt
  induction cnt with
  | zero =>
    intro depth L res _ h
    injection h with h
    subst h
    exact ⟨by intro pr hpr; simp at hpr, List.nodup_nil⟩
  | succ cnt ih =>
    intro depth L res hnodup h
    simp only [genLoop] at h
    split at h
    · injection h with h
      subst h
      exact ⟨by intro pr hpr; simp at hpr, List.nodup_nil⟩
    · have hidx : ((0 : Int) + (cnt : Int)).toNat = cnt := by omega
      rw [hidx] at h
      cases heq : L[cnt]? with
      | none => rw [heq] at h; cases h
      | some x =>
        rw [heq] at h
        dsimp only at h
        have hcntlt : cnt < L.length := (List.getElem?_eq_some.mp heq).1
        have hmem : x ∈ L := by
          rcases List.getElem?_eq_some.mp heq with ⟨hlt, hEq⟩
          exact hEq ▸ List.getElem_mem hlt
        have herase : L.erase x = L.take cnt ++ L.drop (cnt + 1) :=
          erase_of_nodup_getElem L cnt x hnodup heq
        have hnd' : (L.erase x).Nodup := hnodup.erase x
        have hxnot : x ∉ L.erase x := hnodup.not_mem_erase
        have hsubL : (L.erase x).Sublist L := List.erase_sublist x L
        have hlenlt : (L.erase x).length < L.length := by
          rw [List.length_erase_of_mem hmem]; omega
        have hdl : ∀ (l1 l2 : List Nat) (n : Nat), l1.length = n → (l1 ++ l2).drop n = l2 := by
          intro l1 l2 n hn; subst hn; exact List.drop_left l1 l2
        have hsfx : L.drop (cnt + 1) <:+ L.erase x := by
          rw [herase]; exact List.suffix_append _ _
        have hdropcons : L.drop cnt = x :: L.drop (cnt + 1) := by
          rcases List.getElem?_eq_some.mp heq with ⟨hlt, hEq⟩
          rw [List.drop_eq_getElem_cons hlt, hEq]
        have hdropE : (L.erase x).drop cnt = L.drop (cnt + 1) := by
          rw [herase]
          exact hdl _ _ _ (by rw [List.length_take]; omega)
        cases hsup : findSupportByPrefixPath (L.erase x) fpt ord with
        | none => rw [hsup] at h; cases h
        | some val =>
          rw [hsup] at h
          dsimp only at h
          split at h
          · cases hrec : genLoop 0 minSupp fpt ord cnt (depth - 1) (L.erase x) with
            | none => rw [hrec] at h; cases h
            | some rec1 =>
              rw [hrec] at h
              dsimp only at h
              cases hrest : genLoop 0 minSupp fpt ord cnt depth L with
              | none => rw [hrest] at h; cases h
              | some rest =>
                rw [hrest] at h
                dsimp only at h
                injection h with h
                subst h
                obtain ⟨props1, nd1⟩ := ih (depth - 1) (L.erase x) rec1 hnd' hrec
                obtain ⟨props2, nd2⟩ := ih depth L rest hnodup hrest
                constructor
                · intro pr hpr
                  rcases List.mem_cons.mp hpr with rfl | hpr
                  · exact ⟨hsubL, hlenlt, hsfx⟩
                  · rcases List.mem_append.mp hpr with hpr | hpr
                    · obtain ⟨hs, hl, hx⟩ := props1 pr hpr
                      refine ⟨hs.trans hsubL, by omega, ?_⟩
                      rw [← hdropE]; exact hx
                    · obtain ⟨hs, hl, hx⟩ := props2 pr hpr
                      refine ⟨hs, hl, ?_⟩
                      refine List.IsSuffix.trans ?_ hx
                      rw [hdropcons]
                      exact List.suffix_cons x _
                · simp only [List.map_cons, List.map_append]
                  rw [List.nodup_cons]
                  constructor
                  · intro hmemp
                    rcases List.mem_append.mp hmemp with hmp | hmp
                    · obtain ⟨pr, hpr, hfst⟩ := List.mem_map.mp hmp
                      obtain ⟨_, hl, _⟩ := props1 pr hpr
                      rw [hfst] at hl
                      exact absurd hl (by omega)
                    · obtain ⟨pr, hpr, hfst⟩ := List.mem_map.mp hmp
                      obtain ⟨_, _, hx⟩ := props2 pr hpr
                      have hxin : x ∈ pr.1 := hx.subset (by rw [hdropcons]; exact List.mem_cons_self x _)
                      rw [hfst] at hxin
                      exact hxnot hxin
                  · rw [List.nodup_append]
                    refine ⟨nd1, nd2, ?_⟩
                    intro a ha1 ha2
                    obtain ⟨pr1, hpr1, hfst1⟩ := List.mem_map.mp ha1
                    obtain ⟨pr2, hpr2, hfst2⟩ := List.mem_map.mp ha2
                    obtain ⟨hs1, _, _⟩ := props1 pr1 hpr1
                    obtain ⟨_, _, hx2⟩ := props2 pr2 hpr2
                    have hxin : x ∈ pr2.1 := hx2.subset (by rw [hdropcons]; exact List.mem_cons_self x _)
                    have hxnin : x ∉ pr1.1 := fun hc => hxnot (hs1.subset hc)
                    rw [hfst1] at hxnin
                    rw [hfst2] at hxin
                    exact hxnin hxin
          · obtain ⟨props2, nd2⟩ := ih depth L res hnodup h
            constructor
            · intro pr hpr
              obtain ⟨hs, hl, hx⟩ := props2 pr hpr
              refine ⟨hs, hl, ?_⟩
              refine List.IsSuffix.trans ?_ hx
              rw [hdropcons]
              exact List.suffix_cons x _
            · exact nd2

/-- C8: for every canonical item order (duplicate-free, as `filterTransactions`
produces), tree and threshold, the result list of `findFrequentItemsets`
records no itemset twice. -/
theorem c8_no_duplicate_itemsets (fpt : FPTree) (ord : List Nat) (minSupp : Nat)
    (res : List (List Nat × Nat)) (hord : ord.Nodup)
    (hres : findFrequentItemsets fpt ord minSupp = some res) :
    (res.map Prod.fst).Nodup := by
  have hcnt : (((ord.length : Int) - 1) - 0 + 1).toNat = ord.length := by omega
  unfold findFrequentItemsets generateItemsets at hres
  rw [hcnt] at hres
  exact (genLoop_records_nodup minSupp fpt ord ord.length ((ord.length : Int)) ord res hord hres).2

/-- C8 witness: the enumerator run on the spec's three-transaction example
records six itemsets, pairwise distinct. -/
theorem c8_witness :
    ([1, 2, 3] : List Nat).Nodup ∧
    findFrequentItemsets (buildFPTree [[1, 2], [1, 3], [2, 3]]) [1, 2, 3] 2 =
      some [([1, 2], 3), ([1], 2), ([2], 2), ([1, 3], 3), ([3], 2), ([2, 3], 3)] ∧
    (([([1, 2], 3), ([1], 2), ([2], 2), ([1, 3], 3), ([3], 2), ([2, 3], 3)] :
        List (List Nat × Nat)).map Prod.fst).Nodup :=
  ⟨by decide, by decide,
    c8_no_duplicate_itemsets (buildFPTree [[1, 2], [1, 3], [2, 3]]) [1, 2, 3] 2
      [([1, 2], 3), ([1], 2), ([2], 2), ([1, 3], 3), ([3], 2), ([2, 3], 3)]
      (by decide) (by decide)⟩

/-- C10: with a canonical order of `n ≥ 1` items, every itemset the enumerator
records has between 1 and `n - 1` items: the depth guard stops each branch
before the candidate is emptied, and every record removes at least one item
from the full canonical list. -/
theorem c10_enumerator_size_bounds (fpt : FPTree) (ord : List Nat) (minSupp : Nat)
    (res : List (List Nat × Nat)) (hn : 1 ≤ ord.length)
    (hres : findFrequentItemsets fpt ord minSupp = some res) :
    ∀ pr ∈ res, 1 ≤ pr.1.length ∧ pr.1.length + 1 ≤ ord.length := by
  have hcnt : (((ord.length : Int) - 1) - 0 + 1).toNat = ord.length := by omega
  unfold findFrequentItemsets generateItemsets at hres
  rw [hcnt] at hres
  exact genLoop_record_sizes minSupp fpt ord ord.length ((ord.length : Int)) ord res rfl hres

/-- C10 witness: on the spec's example every recorded itemset has 1 or 2
items, never 0 and never all 3. -/
theorem c10_witness :
    1 ≤ ([1, 2, 3] : List Nat).length ∧
    findFrequentItemsets (buildFPTree [[1, 2], [1, 3], [2, 3]]) [1, 2, 3] 2 =
      some [([1, 2], 3), ([1], 2), ([2], 2), ([1, 3], 3), ([3], 2), ([2, 3], 3)] ∧
    ∀ pr ∈ ([([1, 2], 3), ([1], 2), ([2], 2), ([1, 3], 3), ([3], 2), ([2, 3], 3)] :
        List (List Nat × Nat)), 1 ≤ pr.1.length ∧ pr.1.length + 1 ≤ ([1, 2, 3] : List Nat).length :=
  ⟨by decide, by decide,
    c10_enumerator_size_bounds (buildFPTree [[1, 2], [1, 3], [2, 3]]) [1, 2, 3] 2
      [([1, 2], 3), ([1], 2), ([2], 2), ([1, 3], 3), ([3], 2), ([2, 3], 3)]
      (by decide) (by decide)⟩

/-- C9: the empty dataset is processed without error: empty canonical order,
empty reordered transaction list, a tree holding only the sentinel root, and
an empty frequent-itemset list. -/
theorem c9_empty_dataset (minSupp : Nat) :
    filterTransactions [] minSupp = ([], []) ∧
    buildFPTree [] = emptyFPTree ∧
    (buildFPTree []).nodes = [rootFPNode] ∧
    findFrequentItemsets (buildFPTree []) [] minSupp = some [] :=
  ⟨rfl, rfl, rfl, rfl⟩

/-- C4 counterexample: on the tree built from the single transaction `[1]`,
the item 2 has no header-table entry, and `findSupportByPrefixPath` on the
itemset `[2]` does not return a support value: it raises `KeyError`
(embedded as `none`) instead of letting the item contribute zero. -/
theorem c4_counterexample :
    (buildFPTree [[1]]).header.lookup 2 = none ∧
    findSupportByPrefixPath [2] (buildFPTree [[1]]) [1, 2] = none := by
  decide

/-- C4 amended: whenever some itemset item has no header-table entry,
`findSupportByPrefixPath` raises `KeyError` (returns `none`) rather than
returning a support; in the program's pipeline that situation never arises
because the canonical order lists only items occurring in the tree. -/
theorem c4_missing_item_gives_none (t : FPTree) (ord X : List Nat) (x : Nat)
    (hx : x ∈ X) (hmiss : t.header.lookup x = none) :
    findSupportByPrefixPath X t ord = none := by
  obtain ⟨k, hk, hget⟩ : ∃ k, k < X.length ∧ X[k]? = some x := by
    obtain ⟨k, hk, hgetk⟩ := List.getElem_of_mem hx
    exact ⟨k, hk, by rw [List.getElem?_eq_getElem hk, hgetk]⟩
  have main : ∀ m, k < m → suppLoop t ord X m = none := by
    intro m
    induction m with
    | zero => omega
    | succ m ih =>
      intro hkm
      by_cases hcase : k < m
      · simp [suppLoop, ih hcase]
      · have hkeq : m = k := by omega
        subst hkeq
        cases hs : suppLoop t ord X m with
        | none => simp [suppLoop, hs]
        | some s => simp [suppLoop, hs, hget, hmiss]
  exact main X.length hk

/-- C4 witness: the amended behaviour at a concrete input. -/
theorem c4_witness :
    7 ∈ [7] ∧ (buildFPTree [[5]]).header.lookup 7 = none ∧
    findSupportByPrefixPath [7] (buildFPTree [[5]]) [5, 7] = none :=
  ⟨by decide, by decide,
    c4_missing_item_gives_none (buildFPTree [[5]]) [5, 7] [7] 7 (by decide) (by decide)⟩

/-- C5: the breadth-first calculator is not equivalent to the prefix-path
calculator: on the tree built from the transaction `[2, 1]` and the itemset
`[1, 2]` — in canonical order for the order `[1, 2]`, both items occurring in
the tree — the prefix-path method double counts the single transaction
(returns 2) while the breadth-first method returns 1. -/
theorem c5_bfs_not_equivalent :
    Canonical [1, 2] [1, 2] ∧
    (buildFPTree [[2, 1]]).header.lookup 1 ≠ none ∧
    (buildFPTree [[2, 1]]).header.lookup 2 ≠ none ∧
    findSupportByPrefixPath [1, 2] (buildFPTree [[2, 1]]) [1, 2] = some 2 ∧
    findSupportByBFS [1, 2] (buildFPTree [[2, 1]]) = 1 ∧
    some (findSupportByBFS [1, 2] (buildFPTree [[2, 1]]))
      ≠ findSupportByPrefixPath [1, 2] (buildFPTree [[2, 1]]) [1, 2] := by
  refine ⟨⟨?_, ?_⟩, by decide, by decide, by decide, by decide, by decide⟩
  · decide
  · decide

/-- C1: on a tree built from canonically sorted, duplicate-free transactions,
`findSupportByPrefixPath` applied to a non-empty canonically ordered itemset
all of whose items occur in the tree returns exactly the number of
transactions containing at least one itemset item, each counted once. -/
theorem c1_prefix_path_or_support (ts : List (List Nat)) (ord X : List Nat)
    (hts : ∀ T ∈ ts, Canonical ord T)
    (hX : Canonical ord X) (hXne : X ≠ [])
    (hocc : ∀ x ∈ X, ∃ T ∈ ts, x ∈ T) :
    findSupportByPrefixPath X (buildFPTree ts) ord
      = some (ts.countP (fun T => X.any (fun x => decide (x ∈ T)))) :=
  support_formula (buildFPTree ts) ts ord X (buildFPTree_inv ts) hts hX hocc

/-- Witness for C1 on the spec's running example: the OR-support of the
itemset `[1, 2]` over `[[1,2],[1,3],[2,3]]` is 3. -/
theorem c1_witness :
    findSupportByPrefixPath [1, 2] (buildFPTree [[1, 2], [1, 3], [2, 3]]) [1, 2, 3]
      = some 3 :=
  (c1_prefix_path_or_support [[1, 2], [1, 3], [2, 3]] [1, 2, 3] [1, 2]
    (by decide) (by decide) (by decide) (by decide)).trans (by decide)

/-- C3 counterexample: the claim quantifies over every pair of
canonically-ordered itemsets `A ⊆ B`, but when `B` contains an item with no
occurrence in the tree the call for `B` raises `KeyError` (embedded as `none`)
while the call for `A` returns a value, so `support(B) ≥ support(A)` fails. -/
theorem c3_counterexample :
    (∀ x ∈ ([1] : List Nat), x ∈ ([1, 2] : List Nat)) ∧
    Canonical [1, 2] [1] ∧ Canonical [1, 2] [1, 2] ∧
    (∀ T ∈ ([[1]] : List (List Nat)), Canonical [1, 2] T) ∧
    findSupportByPrefixPath [1] (buildFPTree [[1]]) [1, 2] = some 1 ∧
    findSupportByPrefixPath [1, 2] (buildFPTree [[1]]) [1, 2] = none := by
  refine ⟨by decide, by decide, by decide, by decide, by decide, by decide⟩

/-- C3 (amended): on a tree built from canonically sorted transactions, for
canonically ordered itemsets `A ⊆ B` all of whose items (those of `B`) occur
in the tree, both calls return and the supports satisfy `sa ≤ sb`. -/
theorem c3_support_monotone (ts : List (List Nat)) (ord A B : List Nat)
    (hts : ∀ T ∈ ts, Canonical ord T)
    (hA : Canonical ord A) (hB : Canonical ord B)
    (hsub : ∀ x ∈ A, x ∈ B)
    (hoccB : ∀ x ∈ B, ∃ T ∈ ts, x ∈ T) :
    ∃ sa sb, findSupportByPrefixPath A (buildFPTree ts) ord = some sa ∧
      findSupportByPrefixPath B (buildFPTree ts) ord = some sb ∧ sa ≤ sb := by
  have hoccA : ∀ x ∈ A, ∃ T ∈ ts, x ∈ T := fun x hx => hoccB x (hsub x hx)
  refine ⟨_, _, support_formula _ ts ord A (buildFPTree_inv ts) hts hA hoccA,
    support_formula _ ts ord B (buildFPTree_inv ts) hts hB hoccB, ?_⟩
  refine List.countP_mono_left (fun T hT hpa => ?_)
  rw [List.any_eq_true] at hpa ⊢
  obtain ⟨x, hxA, hxT⟩ := hpa
  exact ⟨x, hsub x hxA, hxT⟩

/-- Witness for the amended C3: `A = [1] ⊆ B = [1, 2]` over `[[1], [2]]`. -/
theorem c3_witness :
    ∃ sa sb, findSupportByPrefixPath [1] (buildFPTree [[1], [2]]) [1, 2] = some sa ∧
      findSupportByPrefixPath [1, 2] (buildFPTree [[1], [2]]) [1, 2] = some sb ∧
      sa ≤ sb :=
  c3_support_monotone [[1], [2]] [1, 2] [1] [1, 2]
    (by decide) (by decide) (by decide) (by decide) (by decide)

/-- C6: building the tree from any permutation of the (canonically sorted)
transaction list yields the same `findSupportByPrefixPath` result for every
canonically ordered itemset — including the `KeyError` (`none`) outcomes. -/
theorem c6_insertion_order_invariant (ts tsB : List (List Nat)) (ord X : List Nat)
    (hperm : ts.Perm tsB)
    (hts : ∀ T ∈ ts, Canonical ord T)
    (hX : Canonical ord X) :
    findSupportByPrefixPath X (buildFPTree ts) ord
      = findSupportByPrefixPath X (buildFPTree tsB) ord := by
  have htsB : ∀ T ∈ tsB, Canonical ord T := fun T hT => hts T (hperm.mem_iff.mpr hT)
  by_cases hall : ∀ x ∈ X, ∃ T ∈ ts, x ∈ T
  · have hallB : ∀ x ∈ X, ∃ T ∈ tsB, x ∈ T := by
      intro x hx
      obtain ⟨T, hT, hxT⟩ := hall x hx
      exact ⟨T, hperm.mem_iff.mp hT, hxT⟩
    rw [support_formula _ ts ord X (buildFPTree_inv ts) hts hX hall,
      support_formula _ tsB ord X (buildFPTree_inv tsB) htsB hX hallB,
      hperm.countP_eq]
  · push_neg at hall
    obtain ⟨x, hxX, hxno⟩ := hall
    obtain ⟨i, hi, hix⟩ := List.mem_iff_getElem.mp hxX
    have hgd : X.getD i 0 = x := by
      rw [getD_eq_getElem_of_lt X i 0 hi, hix]
    have hm1 : (buildFPTree ts).header.lookup (X.getD i 0) = none := by
      rw [hgd]
      refine (header_lookup_none_iff _ ts (buildFPTree_inv ts) x).mpr ?_
      rintro ⟨T, hT, hxT⟩
      exact hxno T hT hxT
    have hm2 : (buildFPTree tsB).header.lookup (X.getD i 0) = none := by
      rw [hgd]
      refine (header_lookup_none_iff _ tsB (buildFPTree_inv tsB) x).mpr ?_
      rintro ⟨T, hT, hxT⟩
      exact hxno T (hperm.mem_iff.mpr hT) hxT
    rw [findSupportByPrefixPath, findSupportByPrefixPath,
      suppLoop_none _ ord X i hi hm1 X.length (by omega),
      suppLoop_none _ ord X i hi hm2 X.length (by omega)]

/-- Witness for C6: swapping the two transactions leaves the support of `[1]`
unchanged. -/
theorem c6_witness :
    findSupportByPrefixPath [1] (buildFPTree [[1], [2]]) [1, 2]
      = findSupportByPrefixPath [1] (buildFPTree [[2], [1]]) [1, 2] :=
  c6_insertion_order_invariant [[1], [2]] [[2], [1]] [1, 2] [1]
    (by decide) (by decide) (by decide)

/-- C7 counterexample: inserting the empty transaction adds no child of the
root, so after inserting the one-element transaction list `[[]]` the root
children counts sum to 0, not to the number of transactions inserted (1). -/
theorem c7_counterexample :
    rootChildrenCountSum (buildFPTree [[]]) = 0 ∧
      ([[]] : List (List Nat)).length = 1 := by
  refine ⟨by decide, by decide⟩

/-- C7 (amended): the sum of the root's children counts equals the number of
NON-EMPTY transactions inserted; empty transactions contribute nothing. -/
theorem c7_root_children_sum (ts : List (List Nat)) :
    rootChildrenCountSum (buildFPTree ts)
      = ts.countP (fun T => decide (T ≠ [])) := by
  have hinv := buildFPTree_inv ts
  have hck := buildFPTree_childkeys ts
  have h0len : 0 < (buildFPTree ts).nodes.length := by
    cases hnil : (buildFPTree ts).nodes with
    | nil => exact absurd hnil hinv.wf.nodesNe
    | cons b l => simp [hnil]
  generalize hgen : buildFPTree ts = t at hinv hck h0len ⊢
  calc rootChildrenCountSum t
      = ((childrenOf t 0).map
          (fun pr => ts.countP (fun T => decide ([pr.1] <+: T)))).sum := by
        unfold rootChildrenCountSum
        refine congrArg List.sum (List.map_congr_left (fun pr hpr => ?_))
        obtain ⟨h1, hN, hI, hP⟩ := hinv.wf.childMem 0 h0len pr hpr
        obtain ⟨p, y, hp, hplt, hy, hpath⟩ := pathOf_spec t hinv.wf pr.2 h1 hN
        have hp0 : p = 0 := by
          rw [hp] at hP
          exact Option.some.inj hP
        have hy1 : y = pr.1 := by
          rw [hy] at hI
          exact Option.some.inj hI
        have hpath1 : pathOf t pr.2 = [pr.1] := by
          rw [hpath, hp0, pathOf_zero, List.nil_append, hy1]
        rw [hinv.counts pr.2 h1 hN, hpath1]
    _ = ((childrenOf t 0).map
          (fun pr => (ts.map (fun T => if decide ([pr.1] <+: T) then 1 else 0)).sum)).sum := by
        refine congrArg List.sum (List.map_congr_left (fun pr hpr => ?_))
        rw [countP_eq_sum_map]
    _ = (ts.map (fun T =>
          ((childrenOf t 0).map (fun pr => if decide ([pr.1] <+: T) then 1 else 0)).sum)).sum :=
        sum_map_comm _ _ _
    _ = (ts.map (fun T => if decide (T ≠ []) then 1 else 0)).sum := by
        refine congrArg List.sum (List.map_congr_left (fun T hT => ?_))
        cases T with
        | nil =>
          rw [if_neg (by simp)]
          refine sum_map_zero _ _ (fun pr hpr => ?_)
          rw [if_neg (by simp)]
        | cons yh T2 =>
          rw [if_pos (by simp)]
          have hiff : ∀ pr : Nat × Nat, ([pr.1] <+: yh :: T2) ↔ pr.1 = yh := by
            intro pr
            rw [List.cons_prefix_cons]
            simp
          have hre : ((childrenOf t 0).map
                (fun pr => if decide ([pr.1] <+: yh :: T2) then 1 else 0))
              = ((childrenOf t 0).map (fun pr => if pr.1 = yh then 1 else 0)) := by
            refine List.map_congr_left (fun pr hpr => ?_)
            by_cases hc : pr.1 = yh
            · rw [if_pos (decide_eq_true ((hiff pr).mpr hc)), if_pos hc]
            · rw [if_neg (fun hd => hc ((hiff pr).mp (of_decide_eq_true hd))), if_neg hc]
          rw [hre, sum_key_indicator _ _ (hck 0)]
          have hex : ∃ id, 1 ≤ id ∧ id < t.nodes.length ∧ pathOf t id = [yh] :=
            (hinv.paths [yh]).mpr ⟨by simp, yh :: T2, hT, by
              rw [List.cons_prefix_cons]
              exact ⟨rfl, List.nil_prefix⟩⟩
          obtain ⟨id, h1, h2, h3⟩ := hex
          obtain ⟨p, y, hp, hplt, hy, hpath⟩ := pathOf_spec t hinv.wf id h1 h2
          rw [h3] at hpath
          have hpe : pathOf t p = [] := by
            have hl := congrArg List.length hpath
            rw [List.length_append] at hl
            simp at hl
            exact hl
          rw [hpe, List.nil_append] at hpath
          have hyy : y = yh := by
            injection hpath with hh1 hh2
            exact hh1.symm
          have hp0 : p = 0 := by
            by_contra hpne
            exact pathOf_ne_nil t hinv.wf p (by omega) (by omega) hpe
          have hcl := hinv.wf.childLookup id h1 h2 0 yh
            (by rw [hp, hp0]) (by rw [hy, hyy])
          rw [if_pos (List.mem_map_of_mem Prod.fst (lookup_isSome_mem _ _ _ hcl))]
    _ = ts.countP (fun T => decide (T ≠ [])) := (countP_eq_sum_map ts _).symm

end DisjMining
